import Mathlib

/-!
Verification of the pairwise-constraint generation utilities and the clustering
accuracy evaluator of `utils_xiang.py` (scDCC). The sampling functions are
embedded as a generic fuelled rejection-sampling loop parametrised by a
classification rule; randomness (`random.randint`, `random.choice`,
`np.random.permutation`) is modelled by its documented contract, with the raw
random stream supplied as an explicit argument so that theorems quantify over
every possible stream. Numeric data is embedded over `ℚ`; the Euclidean
distance matrix computed by `sklearn.euclidean_distances` (and re-evaluated in
the loop guards via `scipy.linalg.norm`, which yields the same value) is taken
as an explicit input matrix.
-/

set_option autoImplicit false

namespace ScDCC

/-- Outcome of classifying one candidate pair inside a sampling loop: append to
the must-link lists, append to the cannot-link lists, or reject (the `else:
continue` branch). -/
inductive Verdict where
  | ml
  | cl
  | reject
deriving DecidableEq, Repr

/-- Accumulated constraint lists `ml_ind1, ml_ind2, cl_ind1, cl_ind2`. -/
structure PairState where
  ml1 : List ℕ
  ml2 : List ℕ
  cl1 : List ℕ
  cl2 : List ℕ
deriving DecidableEq, Repr

/-- Empty initial state: all four lists start as `[]`. -/
def PairState.init : PairState := ⟨[], [], [], []⟩

/-- Embedding of the nested helper `check_ind(ind1, ind2, ind_list1, ind_list2)`
shared verbatim by every generator: scan `zip(ind_list1, ind_list2)` for an
exact ordered match of `(ind1, ind2)`. -/
def check_ind (ind1 ind2 : ℕ) (l1 l2 : List ℕ) : Bool :=
  (l1.zip l2).any fun p => ind1 == p.1 && ind2 == p.2

/-- Append the candidate pair to the list selected by the verdict
(`ml_ind1.append(tmp1); ml_ind2.append(tmp2)` and the cannot-link analogue). -/
def accept (st : PairState) (v : Verdict) (t1 t2 : ℕ) : PairState :=
  match v with
  | .ml => ⟨st.ml1 ++ [t1], st.ml2 ++ [t2], st.cl1, st.cl2⟩
  | .cl => ⟨st.ml1, st.ml2, st.cl1 ++ [t1], st.cl2 ++ [t2]⟩
  | .reject => st

/-- Variant-specific part of a sampling loop: a counter state `C` (remaining
pair budget, error-injection counter, the split budgets of the one-CD variant),
the classification of a candidate pair (which may consult the counters), the
counter update on acceptance, the loop exit test on the counters, and the
attempt-cap test on the iteration counter `k`. -/
structure Variant (C : Type) where
  classify : C → ℕ → ℕ → Verdict
  update : C → Verdict → C
  done : C → Bool
  cap : ℕ → Bool

/-- Generic fuelled embedding of the shared `while` loop skeleton: exit when the
budget is exhausted or the attempt cap is reached, draw a candidate pair from
the stream, skip self-pairs, skip pairs already present in the must-link lists,
classify, and append on acceptance. Returns `none` when the fuel runs out, i.e.
the Python loop has not terminated within `fuel` iterations. -/
def runLoop {C : Type} (V : Variant C) (draws : ℕ → ℕ × ℕ) :
    ℕ → PairState → C → ℕ → Option (PairState × C × ℕ)
  | 0, _, _, _ => none
  | fuel + 1, st, c, k =>
    if V.done c || V.cap k then some (st, c, k)
    else
      let t1 := (draws k).1
      let t2 := (draws k).2
      if t1 = t2 then runLoop V draws fuel st c (k + 1)
      else if check_ind t1 t2 st.ml1 st.ml2 then runLoop V draws fuel st c (k + 1)
      else
        match V.classify c t1 t2 with
        | .reject => runLoop V draws fuel st c (k + 1)
        | .ml => runLoop V draws fuel (accept st .ml t1 t2) (V.update c .ml) (k + 1)
        | .cl => runLoop V draws fuel (accept st .cl t1 t2) (V.update c .cl) (k + 1)

/-- Model of `random.randint(0, n - 1)`: the library returns an integer in
`[0, n - 1]`; an arbitrary stream value `s` is mapped onto that range, and every
value of the range is reachable, so quantifying over all streams covers every
possible sequence of draws. -/
def randint (n s : ℕ) : ℕ := s % n

/-- Model of `random.choice(l)`: the library returns an element of `l`; an
arbitrary stream value selects the position. -/
def choice (l : List ℕ) (s : ℕ) : ℕ := l.getD (s % l.length) 0

/-- Candidate-pair stream of the variants drawing two `random.randint(0, n-1)`
samples per iteration. -/
def randintDraws (n : ℕ) (stream : ℕ → ℕ × ℕ) : ℕ → ℕ × ℕ :=
  fun k => (randint n (stream k).1, randint n (stream k).2)

/-- Candidate-pair stream of `generate_random_pair`, drawing two
`random.choice(label_cell_indx)` samples per iteration. -/
def choiceDraws (l : List ℕ) (stream : ℕ → ℕ × ℕ) : ℕ → ℕ × ℕ :=
  fun k => (choice l (stream k).1, choice l (stream k).2)

/-- Model of `np.random.permutation(n)`: the library always returns a
permutation of `0, …, n-1`. An arbitrary caller-supplied list is validated
against that contract (defaulting to the identity order), so that every
possible library output corresponds to some parameter value. -/
def npPermutation (n : ℕ) (p : List ℕ) : List ℕ :=
  if List.Perm p (List.range n) then p else List.range n

/-- Fancy-indexing `l[p]` of a list by an index list, as used for the final
`ml_ind1 = ml_ind1[ml_index]` shuffles. -/
def applyPerm (p : List ℕ) (l : List ℕ) : List ℕ :=
  p.map fun i => l.getD i 0

/-- Model of `np.quantile(a, q)` (the default linear interpolation method):
with `s` the ascending sort of `a` and `h = q * (len(a) - 1)`, interpolate
between `s[⌊h⌋]` and `s[⌊h⌋ + 1]`. The library raises on an empty input; the
model returns `0` there (never relied upon). -/
def npQuantile (a : List ℚ) (q : ℚ) : ℚ :=
  let s := a.insertionSort (· ≤ ·)
  let h := q * ((a.length : ℚ) - 1)
  let i := ⌊h⌋.toNat
  match s.get? i, s.get? (i + 1) with
  | some lo, some hi => lo + (h - i) * (hi - lo)
  | some lo, none => lo
  | none, _ => 0

/-- Model of `np.percentile(a, p)`, which is `np.quantile(a, p / 100)`. -/
def npPercentile (a : List ℚ) (p : ℚ) : ℚ := npQuantile a (p / 100)

/-- Row `r` of a matrix with `ncols` columns, as the list `M[r, :]`. -/
def rowList (M : ℕ → ℕ → ℚ) (ncols r : ℕ) : List ℚ :=
  (List.range ncols).map (M r)

/-- Shared post-processing of every generator: shuffle the must-link pair of
lists by one `np.random.permutation(len(ml_ind1))` draw and the cannot-link
pair by an independent `np.random.permutation(len(cl_ind1))` draw. -/
def finalize (st : PairState) (pml pcl : List ℕ) :
    List ℕ × List ℕ × List ℕ × List ℕ :=
  let mlIndex := npPermutation st.ml1.length pml
  let clIndex := npPermutation st.cl1.length pcl
  (applyPerm mlIndex st.ml1, applyPerm mlIndex st.ml2,
   applyPerm clIndex st.cl1, applyPerm clIndex st.cl2)

/-- Counter of the variants that only track the remaining pair budget `num`. -/
structure NumCtr where
  num : ℕ
deriving DecidableEq, Repr

/-- Loop control shared by the budget-only variants: decrement `num` on every
acceptance, exit when `num` reaches `0`, attempt cap as supplied. -/
def numVariant (classify : ℕ → ℕ → Verdict) (cap : ℕ → Bool) : Variant NumCtr where
  classify := fun _ => classify
  update := fun c _ => ⟨c.num - 1⟩
  done := fun c => c.num == 0
  cap := cap

/-- Counter of `generate_random_pair`: the remaining budget `num` and the
error-injection counter `error_num`. -/
structure GrpCtr where
  num : ℕ
  errNum : ℕ
deriving DecidableEq, Repr

/-- Classification rule of `generate_random_pair`: same label means must-link
and different label means cannot-link, flipped while the error-injection budget
`error_num < error_rate * num0` is not yet exhausted. -/
def grpClassify (y : ℕ → ℕ) (error_rate : ℚ) (num0 : ℕ) (c : GrpCtr) (t1 t2 : ℕ) : Verdict :=
  if y t1 = y t2 then
    if error_rate * (num0 : ℚ) ≤ (c.errNum : ℚ) then .ml else .cl
  else
    if error_rate * (num0 : ℚ) ≤ (c.errNum : ℚ) then .cl else .ml

/-- Loop control of `generate_random_pair`: on acceptance decrement `num`, and
increment `error_num` exactly when the accepted pair was flipped (the accept
branches that run `error_num += 1`). -/
def grpVariant (y : ℕ → ℕ) (error_rate : ℚ) (num0 : ℕ) : Variant GrpCtr where
  classify := grpClassify y error_rate num0
  update := fun c _ =>
    ⟨c.num - 1, if error_rate * (num0 : ℚ) ≤ (c.errNum : ℚ) then c.errNum else c.errNum + 1⟩
  done := fun c => c.num == 0
  cap := fun _ => false

/-- Embedding of `generate_random_pair(y, label_cell_indx, num, error_rate)`.
The random stream, the two `np.random.permutation` draws and the loop fuel are
explicit arguments; the result is `none` exactly when the Python loop fails to
terminate within `fuel` iterations. -/
def generate_random_pair (y : ℕ → ℕ) (label_cell_indx : List ℕ) (num : ℕ) (error_rate : ℚ)
    (stream : ℕ → ℕ × ℕ) (pml pcl : List ℕ) (fuel : ℕ) :
    Option ((List ℕ × List ℕ × List ℕ × List ℕ) × ℕ) :=
  match runLoop (grpVariant y error_rate num) (choiceDraws label_cell_indx stream) fuel
      PairState.init ⟨num, 0⟩ 0 with
  | none => none
  | some (st, c, _) => some (finalize st pml pcl, c.errNum)

/-- Entries of `np.tril(latent_dist, -1).flatten()` restricted to the strictly
positive ones: row-major flattening keeps `dist i j` exactly when `j < i`, all
other positions flatten to `0`, and the `latent_dist_vec > 0` mask then keeps
the positive entries. -/
def trilPositives (n : ℕ) (dist : ℕ → ℕ → ℚ) : List ℚ :=
  (((List.range n).map fun i =>
      (List.range n).map fun j => if j < i then dist i j else 0).flatten).filter
    fun x => decide (0 < x)

/-- Classification rule of `generate_random_pair_from_proteins`: distance
strictly below the must-link cutoff gives must-link, strictly above the
cannot-link cutoff gives cannot-link, otherwise reject. -/
def proteinsClassify (dist : ℕ → ℕ → ℚ) (cutoffML cutoffCL : ℚ) (t1 t2 : ℕ) : Verdict :=
  if dist t1 t2 < cutoffML then .ml
  else if dist t1 t2 > cutoffCL then .cl
  else .reject

/-- Quantile cutoff of the proteins variant: `np.quantile` of the strictly
lower-triangular positive distances at level `q`. -/
def proteinsCutoff (n : ℕ) (dist : ℕ → ℕ → ℚ) (q : ℚ) : ℚ :=
  npQuantile (trilPositives n dist) q

/-- Embedding of `generate_random_pair_from_proteins(latent_embedding, num, ML, CL)`
for an embedding with `n` rows. The Euclidean distance matrix computed by
`euclidean_distances(latent_embedding, latent_embedding)` is supplied as
`dist`; the loop guard `norm(latent_embedding[tmp1] - latent_embedding[tmp2], 2)`
evaluates the same metric, hence also `dist`. -/
def generate_random_pair_from_proteins (n : ℕ) (dist : ℕ → ℕ → ℚ) (num : ℕ) (ML CL : ℚ)
    (stream : ℕ → ℕ × ℕ) (pml pcl : List ℕ) (fuel : ℕ) :
    Option (List ℕ × List ℕ × List ℕ × List ℕ) :=
  (runLoop
      (numVariant (proteinsClassify dist (proteinsCutoff n dist ML) (proteinsCutoff n dist CL))
        fun _ => false)
      (randintDraws n stream) fuel PairState.init ⟨num⟩ 0).map
    fun r => finalize r.1 pml pcl

/-- Classification rule of `generate_random_pair_from_two_CDs`: the four
quadrant rules over the percentile thresholds `lc1, lc2, mc1, mc2`, in source
priority order (two must-link rules, then two cannot-link rules). -/
def twoCDsClassify (M : ℕ → ℕ → ℚ) (lc1 lc2 mc1 mc2 : ℚ) (t1 t2 : ℕ) : Verdict :=
  if M 0 t1 > mc1 ∧ M 0 t2 > mc1 ∧ M 1 t1 ≤ lc2 ∧ M 1 t2 ≤ lc2 then .ml
  else if M 0 t1 ≤ lc1 ∧ M 0 t2 ≤ lc1 ∧ M 1 t1 > mc2 ∧ M 1 t2 > mc2 then .ml
  else if M 0 t1 > mc1 ∧ M 1 t1 ≤ lc2 ∧ M 0 t2 ≤ lc1 ∧ M 1 t2 > mc2 then .cl
  else if M 0 t1 ≤ lc1 ∧ M 1 t1 > mc2 ∧ M 0 t2 > mc1 ∧ M 1 t2 ≤ lc2 then .cl
  else .reject

/-- Attempt cap of `generate_random_pair_from_two_CDs`: the loop runs while
`k < 20000 ** 2`. -/
def twoCDsCap (k : ℕ) : Bool := 20000 * 20000 ≤ k

/-- Embedding of `generate_random_pair_from_two_CDs(latent_embedding, num, LC, HC)`
for a matrix `M` with `ncols` columns (samples are columns). -/
def generate_random_pair_from_two_CDs (M : ℕ → ℕ → ℚ) (ncols num : ℕ) (LC HC : ℚ)
    (stream : ℕ → ℕ × ℕ) (pml pcl : List ℕ) (fuel : ℕ) :
    Option (List ℕ × List ℕ × List ℕ × List ℕ) :=
  let lc1 := npPercentile (rowList M ncols 0) LC
  let lc2 := npPercentile (rowList M ncols 1) LC
  let mc1 := npPercentile (rowList M ncols 0) HC
  let mc2 := npPercentile (rowList M ncols 1) HC
  (runLoop (numVariant (twoCDsClassify M lc1 lc2 mc1 mc2) twoCDsCap)
      (randintDraws ncols stream) fuel PairState.init ⟨num⟩ 0).map
    fun r => finalize r.1 pml pcl

/-- Counter of `generate_random_pair_from_one_CD`: the two budgets
`num1 = num2 = num / 2`. Python 3 `/` is exact float division by two, and the
subsequent `-= 1` steps are exact, so `ℚ` represents this arithmetic
faithfully. -/
structure OneCDCtr where
  num1 : ℚ
  num2 : ℚ
deriving DecidableEq, Repr

/-- Classification rule of `generate_random_pair_from_one_CD`: both samples
above the high threshold (must-link, gated by `num1 > 0`), or one above the
high and the other at or below the low threshold (cannot-link, gated by
`num2 > 0`). -/
def oneCDClassify (M : ℕ → ℕ → ℚ) (gene : ℕ) (lc1 mc1 : ℚ) (c : OneCDCtr) (t1 t2 : ℕ) :
    Verdict :=
  if M gene t1 > mc1 ∧ M gene t2 > mc1 ∧ c.num1 > 0 then .ml
  else if M gene t1 > mc1 ∧ M gene t2 ≤ lc1 ∧ c.num2 > 0 then .cl
  else if M gene t1 ≤ lc1 ∧ M gene t2 > mc1 ∧ c.num2 > 0 then .cl
  else .reject

/-- Attempt cap of `generate_random_pair_from_one_CD`: the loop runs while
`k < 1000000`. -/
def oneCDCap (k : ℕ) : Bool := 1000000 ≤ k

/-- Loop control of `generate_random_pair_from_one_CD`: a must-link acceptance
decrements `num1`, a cannot-link acceptance decrements `num2`; the loop runs
while `num1 > 0 or num2 > 0` and the cap is not reached. -/
def oneCDVariant (M : ℕ → ℕ → ℚ) (gene : ℕ) (lc1 mc1 : ℚ) : Variant OneCDCtr where
  classify := oneCDClassify M gene lc1 mc1
  update := fun c v =>
    match v with
    | .ml => ⟨c.num1 - 1, c.num2⟩
    | .cl => ⟨c.num1, c.num2 - 1⟩
    | .reject => c
  done := fun c => decide (c.num1 ≤ 0) && decide (c.num2 ≤ 0)
  cap := oneCDCap

/-- Embedding of `generate_random_pair_from_one_CD(latent_embedding, num, LC, HC, gene)`
for a matrix `M` with `ncols` columns. -/
def generate_random_pair_from_one_CD (M : ℕ → ℕ → ℚ) (ncols num : ℕ) (LC HC : ℚ) (gene : ℕ)
    (stream : ℕ → ℕ × ℕ) (pml pcl : List ℕ) (fuel : ℕ) :
    Option (List ℕ × List ℕ × List ℕ × List ℕ) :=
  let lc1 := npPercentile (rowList M ncols gene) LC
  let mc1 := npPercentile (rowList M ncols gene) HC
  (runLoop (oneCDVariant M gene lc1 mc1) (randintDraws ncols stream) fuel
      PairState.init ⟨(num : ℚ) / 2, (num : ℚ) / 2⟩ 0).map
    fun r => finalize r.1 pml pcl

/-- Classification rule of `generate_random_pair_from_CD_markers`: the chain of
marker-combination branches of the source, with the twelve quantile thresholds
computed from the four marker rows, transcribed in source order. -/
def cdMarkersClassify (m : ℕ → ℕ → ℚ) (ncols : ℕ) (low1 high1 low2 high2 : ℚ)
    (t1 t2 : ℕ) : Verdict :=
  let gene_low1 := npQuantile (rowList m ncols 0) low1
  let gene_high1 := npQuantile (rowList m ncols 0) high1
  let gene_low2 := npQuantile (rowList m ncols 1) low1
  let gene_high2 := npQuantile (rowList m ncols 1) high1
  let _gene_low1_ml := npQuantile (rowList m ncols 0) low2
  let gene_high1_ml := npQuantile (rowList m ncols 0) high2
  let gene_low3 := npQuantile (rowList m ncols 2) low2
  let gene_high3 := npQuantile (rowList m ncols 2) high2
  let gene_low4 := npQuantile (rowList m ncols 3) low2
  let gene_high4 := npQuantile (rowList m ncols 3) high2
  let _gene_low2_ml := npQuantile (rowList m ncols 1) low2
  let gene_high2_ml := npQuantile (rowList m ncols 1) high2
  if m 0 t1 < gene_low1 ∧ m 1 t1 > gene_high2 ∧ m 0 t2 > gene_high1 ∧ m 1 t2 < gene_low2 then
    .cl
  else if m 0 t2 < gene_low1 ∧ m 1 t2 > gene_high2 ∧ m 0 t1 > gene_high1 ∧ m 1 t1 < gene_low2 then
    .cl
  else if m 1 t1 > gene_high2_ml ∧ m 2 t1 > gene_high3 ∧ m 1 t2 > gene_high2_ml ∧ m 2 t2 > gene_high3 then
    .ml
  else if m 1 t1 > gene_high2_ml ∧ m 2 t1 < gene_low3 ∧ m 1 t2 > gene_high2_ml ∧ m 2 t2 < gene_low3 then
    .ml
  else if m 0 t1 > gene_high1_ml ∧ m 2 t1 > gene_high3 ∧ m 1 t2 > gene_high1_ml ∧ m 2 t2 > gene_high3 then
    .ml
  else if m 0 t1 > gene_high1_ml ∧ m 2 t1 < gene_low3 ∧ m 3 t1 > gene_high4 ∧ m 1 t2 > gene_high1_ml ∧ m 2 t2 < gene_low3 ∧ m 3 t2 > gene_high4 then
    .ml
  else if m 0 t1 > gene_high1_ml ∧ m 2 t1 < gene_low3 ∧ m 3 t1 < gene_low4 ∧ m 1 t2 > gene_high1_ml ∧ m 2 t2 < gene_low3 ∧ m 3 t2 < gene_low4 then
    .ml
  else .reject

/-- Embedding of
`generate_random_pair_from_CD_markers(markers, num, low1, high1, low2, high2)`
for a marker matrix `m` with `ncols` columns. -/
def generate_random_pair_from_CD_markers (m : ℕ → ℕ → ℚ) (ncols num : ℕ)
    (low1 high1 low2 high2 : ℚ) (stream : ℕ → ℕ × ℕ) (pml pcl : List ℕ) (fuel : ℕ) :
    Option (List ℕ × List ℕ × List ℕ × List ℕ) :=
  (runLoop (numVariant (cdMarkersClassify m ncols low1 high1 low2 high2) fun _ => false)
      (randintDraws ncols stream) fuel PairState.init ⟨num⟩ 0).map
    fun r => finalize r.1 pml pcl

/-- Classification rule of `generate_random_pair_from_embedding_clustering`:
same k-means cluster gives must-link; different clusters with distance above
the cannot-link cutoff gives cannot-link; otherwise reject. -/
def embClusteringClassify (ypred : ℕ → ℕ) (dist : ℕ → ℕ → ℚ) (cutoffCL : ℚ)
    (t1 t2 : ℕ) : Verdict :=
  if ypred t1 = ypred t2 then .ml
  else if ypred t1 ≠ ypred t2 ∧ dist t1 t2 > cutoffCL then .cl
  else .reject

/-- Embedding of
`generate_random_pair_from_embedding_clustering(latent_embedding, num, n_clusters, ML, CL)`
for an embedding with `n` rows. The k-means labels `y_pred` produced by the
external `sklearn.cluster.KMeans(...).fit(...).labels_` call are supplied as an
input, and the Euclidean distance matrix as `dist` (as in the proteins
variant). The source also computes `cutoff_ML` from the `ML` quantile but never
uses it. -/
def generate_random_pair_from_embedding_clustering (n : ℕ) (ypred : ℕ → ℕ)
    (dist : ℕ → ℕ → ℚ) (num : ℕ) (ML CL : ℚ) (stream : ℕ → ℕ × ℕ) (pml pcl : List ℕ)
    (fuel : ℕ) : Option (List ℕ × List ℕ × List ℕ × List ℕ) :=
  let _cutoff_ML := proteinsCutoff n dist ML
  let cutoff_CL := proteinsCutoff n dist CL
  (runLoop (numVariant (embClusteringClassify ypred dist cutoff_CL) fun _ => false)
      (randintDraws n stream) fuel PairState.init ⟨num⟩ 0).map
    fun r => finalize r.1 pml pcl

/-- Maximum of a list of naturals, `0` on the empty list (`numpy.max` raises on
an empty array; the caller of this definition checks emptiness first). -/
def listMax (l : List ℕ) : ℕ := l.foldr max 0

/-- Dimension `D = max(y_pred.max(), y_true.max()) + 1` of the contingency
matrix of `cluster_acc`. -/
def labelDim (y_true y_pred : List ℕ) : ℕ :=
  max (listMax y_pred) (listMax y_true) + 1

/-- Contingency matrix `w` of `cluster_acc`: `w[i, j]` counts the samples `k`
with `y_pred[k] = i` and `y_true[k] = j`. -/
def contingency (y_true y_pred : List ℕ) (i j : ℕ) : ℕ :=
  (y_pred.zip y_true).count (i, j)

/-- Value of the optimal linear assignment on a `D × D` weight matrix: sklearn's
`linear_assignment` (Hungarian algorithm) returns a minimum-cost perfect
matching of the cost matrix `w.max() - w`, i.e. a permutation `σ` maximising
`∑ w[σ j, j]`; the external library call is modelled by that documented
contract, and `cluster_acc` sums the selected entries `w[i, j]`. -/
def bestAssign (D : ℕ) (w : ℕ → ℕ → ℕ) : ℕ :=
  Finset.univ.sup fun σ : Equiv.Perm (Fin D) => ∑ j : Fin D, w (σ j) j

/-- Embedding of `cluster_acc(y_true, y_pred)`: assert equal sizes (an
`AssertionError` on mismatch), then `y_pred.max()` — which raises a
`ValueError` on a zero-size array — and return the optimal-assignment total
over the number of samples. -/
def cluster_acc (y_true y_pred : List ℕ) : Except String ℚ :=
  if y_pred.length = y_true.length then
    if y_pred.isEmpty then Except.error "ValueError"
    else
      Except.ok
        ((bestAssign (labelDim y_true y_pred) (contingency y_true y_pred) : ℚ) /
          (y_pred.length : ℚ))
  else Except.error "AssertionError"

/-- Relabelling of the predicted labels by a permutation `π` of the label set
`{0, …, D-1}`: every label (all of which are below `D`) is mapped through `π`. -/
def relabel (D : ℕ) (π : Equiv.Perm (Fin D)) (p : List ℕ) : List ℕ :=
  p.map fun x => if h : x < D then ((π ⟨x, h⟩ : Fin D) : ℕ) else x

/-- First-match evaluation of a decision table: the first pattern matching the
candidate pair decides the verdict, and a candidate matching no pattern is
rejected. -/
def firstMatch (t1 t2 : ℕ) : List ((ℕ → ℕ → Bool) × Verdict) → Verdict
  | [] => .reject
  | pv :: rest => if pv.1 t1 t2 then pv.2 else firstMatch t1 t2 rest

/-- Decision table of `generate_random_pair_from_CD_markers` as an explicit
pattern list in source priority order: the two cannot-link patterns followed by
the five must-link patterns. -/
def cdMarkersTable (m : ℕ → ℕ → ℚ) (ncols : ℕ) (low1 high1 low2 high2 : ℚ) :
    List ((ℕ → ℕ → Bool) × Verdict) :=
  let gene_low1 := npQuantile (rowList m ncols 0) low1
  let gene_high1 := npQuantile (rowList m ncols 0) high1
  let gene_low2 := npQuantile (rowList m ncols 1) low1
  let gene_high2 := npQuantile (rowList m ncols 1) high1
  let gene_high1_ml := npQuantile (rowList m ncols 0) high2
  let gene_low3 := npQuantile (rowList m ncols 2) low2
  let gene_high3 := npQuantile (rowList m ncols 2) high2
  let gene_low4 := npQuantile (rowList m ncols 3) low2
  let gene_high4 := npQuantile (rowList m ncols 3) high2
  let gene_high2_ml := npQuantile (rowList m ncols 1) high2
  [(fun t1 t2 =>
      decide (m 0 t1 < gene_low1 ∧ m 1 t1 > gene_high2 ∧ m 0 t2 > gene_high1 ∧
        m 1 t2 < gene_low2), .cl),
   (fun t1 t2 =>
      decide (m 0 t2 < gene_low1 ∧ m 1 t2 > gene_high2 ∧ m 0 t1 > gene_high1 ∧
        m 1 t1 < gene_low2), .cl),
   (fun t1 t2 =>
      decide (m 1 t1 > gene_high2_ml ∧ m 2 t1 > gene_high3 ∧ m 1 t2 > gene_high2_ml ∧
        m 2 t2 > gene_high3), .ml),
   (fun t1 t2 =>
      decide (m 1 t1 > gene_high2_ml ∧ m 2 t1 < gene_low3 ∧ m 1 t2 > gene_high2_ml ∧
        m 2 t2 < gene_low3), .ml),
   (fun t1 t2 =>
      decide (m 0 t1 > gene_high1_ml ∧ m 2 t1 > gene_high3 ∧ m 1 t2 > gene_high1_ml ∧
        m 2 t2 > gene_high3), .ml),
   (fun t1 t2 =>
      decide (m 0 t1 > gene_high1_ml ∧ m 2 t1 < gene_low3 ∧ m 3 t1 > gene_high4 ∧
        m 1 t2 > gene_high1_ml ∧ m 2 t2 < gene_low3 ∧ m 3 t2 > gene_high4), .ml),
   (fun t1 t2 =>
      decide (m 0 t1 > gene_high1_ml ∧ m 2 t1 < gene_low3 ∧ m 3 t1 < gene_low4 ∧
        m 1 t2 > gene_high1_ml ∧ m 2 t2 < gene_low3 ∧ m 3 t2 < gene_low4), .ml)]

/-- Modelled from the spec: the claimed "fixed decision table of six
marker-combination patterns … two cell-type-defining rules for cannot-link and
four for must-link; evaluated in priority order, first match wins" — the two
cannot-link branches followed by the first four must-link branches of the
source chain. Used only as the comparison point for the decision-table claim. -/
def cdMarkersClassifySpecSix (m : ℕ → ℕ → ℚ) (ncols : ℕ) (low1 high1 low2 high2 : ℚ)
    (t1 t2 : ℕ) : Verdict :=
  firstMatch t1 t2 ((cdMarkersTable m ncols low1 high1 low2 high2).take 6)

/-- Per-candidate invariant maintained by every sampling loop, over a predicate
`A` describing the valid sample indices: the paired lists have equal lengths,
the must-link pair list has no duplicate ordered pair, no pair links an index
to itself, and every stored index is a valid sample index. -/
structure LoopInv (A : ℕ → Prop) (st : PairState) : Prop where
  len_ml : st.ml1.length = st.ml2.length
  len_cl : st.cl1.length = st.cl2.length
  nodup_ml : (st.ml1.zip st.ml2).Nodup
  ne_ml : ∀ pr ∈ st.ml1.zip st.ml2, pr.1 ≠ pr.2
  ne_cl : ∀ pr ∈ st.cl1.zip st.cl2, pr.1 ≠ pr.2
  mem_ml1 : ∀ x ∈ st.ml1, A x
  mem_ml2 : ∀ x ∈ st.ml2, A x
  mem_cl1 : ∀ x ∈ st.cl1, A x
  mem_cl2 : ∀ x ∈ st.cl2, A x

/-- Marker matrix of the decision-table counterexample: four rows over eleven
cells, each row a permutation of `0, …, 10` so that every row has `0.2/0.4/0.6/0.8`
quantiles `2/4/6/8`. Column `0` expresses marker `0` highly (`9`) and markers
`2, 3` lowly; column `1` expresses marker `1` highly (`9`) and markers `2, 3`
lowly. -/
def c5Rows : List (List ℚ) :=
  [[9, 5, 0, 1, 2, 3, 4, 6, 7, 8, 10],
   [0, 9, 1, 2, 3, 4, 5, 6, 7, 8, 10],
   [0, 1, 2, 3, 4, 5, 6, 7, 8, 9, 10],
   [1, 0, 2, 3, 4, 5, 6, 7, 8, 9, 10]]

/-- Marker matrix of the decision-table counterexample as a function. -/
def c5Markers (r c : ℕ) : ℚ := (c5Rows.getD r []).getD c 0

/-! Helper lemmas about the shared randomness models and post-processing. -/

theorem check_ind_eq_false_iff (t1 t2 : ℕ) (l1 l2 : List ℕ) :
    check_ind t1 t2 l1 l2 = false ↔ (t1, t2) ∉ l1.zip l2 := by
  simp only [check_ind, List.any_eq_false, Bool.and_eq_true, beq_iff_eq]
  constructor
  · intro h hmem
    exact h (t1, t2) hmem ⟨rfl, rfl⟩
  · rintro h ⟨a, b⟩ hmem ⟨rfl, rfl⟩
    exact h hmem

theorem npPermutation_perm (n : ℕ) (p : List ℕ) :
    List.Perm (npPermutation n p) (List.range n) := by
  unfold npPermutation
  split
  · assumption
  · exact List.Perm.refl _

theorem npPermutation_length (n : ℕ) (p : List ℕ) : (npPermutation n p).length = n :=
  (npPermutation_perm n p).length_eq.trans (List.length_range n)

theorem range_map_getD (l : List ℕ) :
    ((List.range l.length).map fun i => l.getD i 0) = l := by
  apply List.ext_getElem
  · simp
  · intro i h1 h2
    simp only [List.getElem_map, List.getElem_range]
    exact List.getD_eq_getElem l 0 h2

theorem applyPerm_perm (p l : List ℕ) (h : List.Perm p (List.range l.length)) :
    List.Perm (applyPerm p l) l := by
  have hm := h.map fun i => l.getD i 0
  rw [range_map_getD] at hm
  exact hm

theorem applyPerm_zip (p l1 l2 : List ℕ) :
    (applyPerm p l1).zip (applyPerm p l2) = p.map fun i => (l1.getD i 0, l2.getD i 0) :=
  List.zip_map' _ _ _

theorem range_map_getD_pair (l1 l2 : List ℕ) (h : l1.length = l2.length) :
    ((List.range l1.length).map fun i => (l1.getD i 0, l2.getD i 0)) = l1.zip l2 := by
  apply List.ext_getElem
  · simp [List.length_zip, h]
  · intro i h1 h2
    simp only [List.getElem_map, List.getElem_range, List.getElem_zip]
    rw [List.length_map, List.length_range] at h1
    rw [List.getD_eq_getElem l1 0 h1, List.getD_eq_getElem l2 0 (h ▸ h1)]

theorem applyPerm_zip_perm (p l1 l2 : List ℕ) (hp : List.Perm p (List.range l1.length))
    (h : l1.length = l2.length) :
    List.Perm ((applyPerm p l1).zip (applyPerm p l2)) (l1.zip l2) := by
  rw [applyPerm_zip]
  have hm := hp.map fun i => (l1.getD i 0, l2.getD i 0)
  rw [range_map_getD_pair l1 l2 h] at hm
  exact hm

theorem finalize_ml_zip_perm (st : PairState) (pml pcl : List ℕ)
    (h : st.ml1.length = st.ml2.length) :
    List.Perm ((finalize st pml pcl).1.zip (finalize st pml pcl).2.1)
      (st.ml1.zip st.ml2) := by
  exact applyPerm_zip_perm _ _ _ (npPermutation_perm _ _) h

theorem finalize_cl_zip_perm (st : PairState) (pml pcl : List ℕ)
    (h : st.cl1.length = st.cl2.length) :
    List.Perm ((finalize st pml pcl).2.2.1.zip (finalize st pml pcl).2.2.2)
      (st.cl1.zip st.cl2) := by
  exact applyPerm_zip_perm _ _ _ (npPermutation_perm _ _) h

theorem finalize_ml1_perm (st : PairState) (pml pcl : List ℕ) :
    List.Perm (finalize st pml pcl).1 st.ml1 :=
  applyPerm_perm _ _ (npPermutation_perm _ _)

theorem finalize_ml2_perm (st : PairState) (pml pcl : List ℕ)
    (h : st.ml1.length = st.ml2.length) :
    List.Perm (finalize st pml pcl).2.1 st.ml2 :=
  applyPerm_perm _ _ (h ▸ npPermutation_perm _ _)

theorem finalize_cl1_perm (st : PairState) (pml pcl : List ℕ) :
    List.Perm (finalize st pml pcl).2.2.1 st.cl1 :=
  applyPerm_perm _ _ (npPermutation_perm _ _)

theorem finalize_cl2_perm (st : PairState) (pml pcl : List ℕ)
    (h : st.cl1.length = st.cl2.length) :
    List.Perm (finalize st pml pcl).2.2.2 st.cl2 :=
  applyPerm_perm _ _ (h ▸ npPermutation_perm _ _)

theorem randint_lt (n s : ℕ) (h : 0 < n) : randint n s < n := Nat.mod_lt s h

theorem choice_mem (l : List ℕ) (s : ℕ) (h : l ≠ []) : choice l s ∈ l := by
  unfold choice
  have hlen : s % l.length < l.length := Nat.mod_lt s (List.length_pos.mpr h)
  rw [List.getD_eq_getElem l 0 hlen]
  exact List.getElem_mem hlen

/-! Master lemmas about the generic sampling loop: invariant preservation with
the loop exit condition, guaranteed termination under an attempt cap, and
divergence when no candidate can make progress. -/

theorem runLoop_inv {C : Type} (V : Variant C) (draws : ℕ → ℕ × ℕ)
    (R : PairState → C → Prop)
    (hml : ∀ st c k, R st c → V.done c = false → V.cap k = false →
      (draws k).1 ≠ (draws k).2 →
      check_ind (draws k).1 (draws k).2 st.ml1 st.ml2 = false →
      V.classify c (draws k).1 (draws k).2 = .ml →
      R (accept st .ml (draws k).1 (draws k).2) (V.update c .ml))
    (hcl : ∀ st c k, R st c → V.done c = false → V.cap k = false →
      (draws k).1 ≠ (draws k).2 →
      check_ind (draws k).1 (draws k).2 st.ml1 st.ml2 = false →
      V.classify c (draws k).1 (draws k).2 = .cl →
      R (accept st .cl (draws k).1 (draws k).2) (V.update c .cl)) :
    ∀ fuel st c k st' c' k',
      runLoop V draws fuel st c k = some (st', c', k') → R st c →
      R st' c' ∧ (V.done c' || V.cap k') = true := by
  intro fuel
  induction fuel with
  | zero =>
    intro st c k st' c' k' h
    simp [runLoop] at h
  | succ n ih =>
    intro st c k st' c' k' h hR
    rw [runLoop] at h
    by_cases hd : (V.done c || V.cap k) = true
    · rw [if_pos hd] at h
      obtain ⟨rfl, rfl, rfl⟩ : st = st' ∧ c = c' ∧ k = k' := by
        injection h with h2
        exact ⟨congrArg (fun x => x.1) h2, congrArg (fun x => x.2.1) h2,
          congrArg (fun x => x.2.2) h2⟩
      exact ⟨hR, hd⟩
    · rw [if_neg hd] at h
      have hdone : V.done c = false := by
        cases hdc : V.done c <;> simp [hdc] at hd ⊢
      have hcap : V.cap k = false := by
        cases hck : V.cap k <;> simp [hck] at hd ⊢
      by_cases ht : (draws k).1 = (draws k).2
      · rw [if_pos ht] at h
        exact ih st c (k + 1) st' c' k' h hR
      · rw [if_neg ht] at h
        by_cases hchk : check_ind (draws k).1 (draws k).2 st.ml1 st.ml2 = true
        · rw [if_pos hchk] at h
          exact ih st c (k + 1) st' c' k' h hR
        · rw [if_neg hchk] at h
          have hchk' : check_ind (draws k).1 (draws k).2 st.ml1 st.ml2 = false :=
            Bool.eq_false_iff.mpr hchk
          cases hv : V.classify c (draws k).1 (draws k).2 with
          | reject =>
            rw [hv] at h
            exact ih st c (k + 1) st' c' k' h hR
          | ml =>
            rw [hv] at h
            exact ih _ _ (k + 1) st' c' k' h (hml st c k hR hdone hcap ht hchk' hv)
          | cl =>
            rw [hv] at h
            exact ih _ _ (k + 1) st' c' k' h (hcl st c k hR hdone hcap ht hchk' hv)

theorem runLoop_terminates {C : Type} (V : Variant C) (draws : ℕ → ℕ × ℕ) (cap : ℕ)
    (hcap : ∀ k, cap ≤ k → V.cap k = true) :
    ∀ f k st c, cap ≤ k + f → ∃ r, runLoop V draws (f + 1) st c k = some r := by
  intro f
  induction f with
  | zero =>
    intro k st c hk
    refine ⟨(st, c, k), ?_⟩
    rw [runLoop, if_pos]
    simp [hcap k (by omega)]
  | succ n ih =>
    intro k st c hk
    by_cases hd : (V.done c || V.cap k) = true
    · exact ⟨(st, c, k), by rw [runLoop, if_pos hd]⟩
    · have hrec : cap ≤ (k + 1) + n := by omega
      rw [runLoop, if_neg hd]
      by_cases ht : (draws k).1 = (draws k).2
      · rw [if_pos ht]; exact ih (k + 1) st c hrec
      · rw [if_neg ht]
        by_cases hchk : check_ind (draws k).1 (draws k).2 st.ml1 st.ml2 = true
        · rw [if_pos hchk]; exact ih (k + 1) st c hrec
        · rw [if_neg hchk]
          cases hv : V.classify c (draws k).1 (draws k).2 with
          | reject => exact ih (k + 1) _ _ hrec
          | ml => exact ih (k + 1) _ _ hrec
          | cl => exact ih (k + 1) _ _ hrec

theorem LoopInv.accept_ml {A : ℕ → Prop} {st : PairState} (inv : LoopInv A st)
    {t1 t2 : ℕ} (h1 : A t1) (h2 : A t2) (hne : t1 ≠ t2)
    (hchk : check_ind t1 t2 st.ml1 st.ml2 = false) :
    LoopInv A (accept st .ml t1 t2) := by
  have hnotin : (t1, t2) ∉ st.ml1.zip st.ml2 := (check_ind_eq_false_iff t1 t2 _ _).mp hchk
  have hzip : (st.ml1 ++ [t1]).zip (st.ml2 ++ [t2]) = st.ml1.zip st.ml2 ++ [(t1, t2)] := by
    rw [List.zip_append inv.len_ml]
    rfl
  refine ⟨?_, inv.len_cl, ?_, ?_, inv.ne_cl, ?_, ?_, inv.mem_cl1, inv.mem_cl2⟩
  · simp [accept, inv.len_ml]
  · show ((st.ml1 ++ [t1]).zip (st.ml2 ++ [t2])).Nodup
    rw [hzip]
    refine inv.nodup_ml.append (List.nodup_singleton _) ?_
    intro x hx hy
    rw [List.mem_singleton] at hy
    exact hnotin (hy ▸ hx)
  · show ∀ pr ∈ (st.ml1 ++ [t1]).zip (st.ml2 ++ [t2]), pr.1 ≠ pr.2
    rw [hzip]
    intro pr hpr
    rcases List.mem_append.mp hpr with hold | hnew
    · exact inv.ne_ml pr hold
    · rw [List.mem_singleton] at hnew
      subst hnew
      exact hne
  · show ∀ x ∈ st.ml1 ++ [t1], A x
    intro x hx
    rcases List.mem_append.mp hx with hold | hnew
    · exact inv.mem_ml1 x hold
    · rw [List.mem_singleton] at hnew
      exact hnew ▸ h1
  · show ∀ x ∈ st.ml2 ++ [t2], A x
    intro x hx
    rcases List.mem_append.mp hx with hold | hnew
    · exact inv.mem_ml2 x hold
    · rw [List.mem_singleton] at hnew
      exact hnew ▸ h2

theorem LoopInv.accept_cl {A : ℕ → Prop} {st : PairState} (inv : LoopInv A st)
    {t1 t2 : ℕ} (h1 : A t1) (h2 : A t2) (hne : t1 ≠ t2) :
    LoopInv A (accept st .cl t1 t2) := by
  have hzip : (st.cl1 ++ [t1]).zip (st.cl2 ++ [t2]) = st.cl1.zip st.cl2 ++ [(t1, t2)] := by
    rw [List.zip_append inv.len_cl]
    rfl
  refine ⟨inv.len_ml, ?_, inv.nodup_ml, inv.ne_ml, ?_, inv.mem_ml1, inv.mem_ml2, ?_, ?_⟩
  · simp [accept, inv.len_cl]
  · show ∀ pr ∈ (st.cl1 ++ [t1]).zip (st.cl2 ++ [t2]), pr.1 ≠ pr.2
    rw [hzip]
    intro pr hpr
    rcases List.mem_append.mp hpr with hold | hnew
    · exact inv.ne_cl pr hold
    · rw [List.mem_singleton] at hnew
      subst hnew
      exact hne
  · show ∀ x ∈ st.cl1 ++ [t1], A x
    intro x hx
    rcases List.mem_append.mp hx with hold | hnew
    · exact inv.mem_cl1 x hold
    · rw [List.mem_singleton] at hnew
      exact hnew ▸ h1
  · show ∀ x ∈ st.cl2 ++ [t2], A x
    intro x hx
    rcases List.mem_append.mp hx with hold | hnew
    · exact inv.mem_cl2 x hold
    · rw [List.mem_singleton] at hnew
      exact hnew ▸ h2

theorem loopInv_init (A : ℕ → Prop) : LoopInv A PairState.init := by
  constructor <;> simp [PairState.init]

theorem runLoop_loopInv {C : Type} (V : Variant C) (draws : ℕ → ℕ × ℕ) (A : ℕ → Prop)
    (hdraws : ∀ k, A (draws k).1 ∧ A (draws k).2) (fuel : ℕ) (st : PairState) (c : C)
    (k : ℕ) (st' : PairState) (c' : C) (k' : ℕ)
    (h : runLoop V draws fuel st c k = some (st', c', k')) (inv : LoopInv A st) :
    LoopInv A st' :=
  (runLoop_inv V draws (fun s _ => LoopInv A s)
    (fun _ _ k hR _ _ hne hchk _ =>
      hR.accept_ml (hdraws k).1 (hdraws k).2 hne hchk)
    (fun _ _ k hR _ _ hne _ _ =>
      hR.accept_cl (hdraws k).1 (hdraws k).2 hne)
    fuel st c k st' c' k' h inv).1

theorem applyPerm_length (p l : List ℕ) : (applyPerm p l).length = p.length :=
  List.length_map _ _

theorem runLoop_finalize_props {C : Type} (V : Variant C) (draws : ℕ → ℕ × ℕ)
    (A : ℕ → Prop) (hdraws : ∀ k, A (draws k).1 ∧ A (draws k).2) (c0 : C) (fuel : ℕ)
    (st' : PairState) (c' : C) (k' : ℕ) (pml pcl : List ℕ)
    (h : runLoop V draws fuel PairState.init c0 0 = some (st', c', k')) :
    ((finalize st' pml pcl).1.zip (finalize st' pml pcl).2.1).Nodup ∧
    (∀ pr ∈ (finalize st' pml pcl).1.zip (finalize st' pml pcl).2.1, pr.1 ≠ pr.2) ∧
    (∀ pr ∈ (finalize st' pml pcl).2.2.1.zip (finalize st' pml pcl).2.2.2, pr.1 ≠ pr.2) ∧
    (∀ x ∈ (finalize st' pml pcl).1, A x) ∧ (∀ x ∈ (finalize st' pml pcl).2.1, A x) ∧
    (∀ x ∈ (finalize st' pml pcl).2.2.1, A x) ∧ (∀ x ∈ (finalize st' pml pcl).2.2.2, A x) := by
  have inv : LoopInv A st' :=
    runLoop_loopInv V draws A hdraws fuel PairState.init c0 0 st' c' k' h (loopInv_init A)
  have hmlzip := finalize_ml_zip_perm st' pml pcl inv.len_ml
  have hclzip := finalize_cl_zip_perm st' pml pcl inv.len_cl
  refine ⟨hmlzip.nodup_iff.mpr inv.nodup_ml,
    fun pr hpr => inv.ne_ml pr (hmlzip.mem_iff.mp hpr),
    fun pr hpr => inv.ne_cl pr (hclzip.mem_iff.mp hpr),
    fun x hx => inv.mem_ml1 x ((finalize_ml1_perm st' pml pcl).mem_iff.mp hx),
    fun x hx => inv.mem_ml2 x ((finalize_ml2_perm st' pml pcl inv.len_ml).mem_iff.mp hx),
    fun x hx => inv.mem_cl1 x ((finalize_cl1_perm st' pml pcl).mem_iff.mp hx),
    fun x hx => inv.mem_cl2 x ((finalize_cl2_perm st' pml pcl inv.len_cl).mem_iff.mp hx)⟩

theorem oneCDClassify_ml_pos {M : ℕ → ℕ → ℚ} {gene : ℕ} {lc1 mc1 : ℚ} {c : OneCDCtr}
    {t1 t2 : ℕ} (h : oneCDClassify M gene lc1 mc1 c t1 t2 = .ml) : 0 < c.num1 := by
  unfold oneCDClassify at h
  split at h
  · exact (by assumption : _ ∧ _ ∧ c.num1 > 0).2.2
  · split at h
    · exact absurd h (by simp)
    · split at h
      · exact absurd h (by simp)
      · exact absurd h (by simp)

theorem oneCDClassify_cl_pos {M : ℕ → ℕ → ℚ} {gene : ℕ} {lc1 mc1 : ℚ} {c : OneCDCtr}
    {t1 t2 : ℕ} (h : oneCDClassify M gene lc1 mc1 c t1 t2 = .cl) : 0 < c.num2 := by
  unfold oneCDClassify at h
  split at h
  · exact absurd h (by simp)
  · split at h
    · exact (by assumption : _ ∧ _ ∧ c.num2 > 0).2.2
    · split at h
      · exact (by assumption : _ ∧ _ ∧ c.num2 > 0).2.2
      · exact absurd h (by simp)

theorem runLoop_count {C : Type} (V : Variant C) (draws : ℕ → ℕ × ℕ) (numOf : C → ℕ)
    (hupd : ∀ c v, numOf (V.update c v) = numOf c - 1)
    (hdone : ∀ c, V.done c = (numOf c == 0)) (num0 : ℕ) (fuel : ℕ)
    (st st' : PairState) (c c' : C) (k k' : ℕ)
    (h : runLoop V draws fuel st c k = some (st', c', k'))
    (hinv : st.ml1.length + st.cl1.length + numOf c = num0) :
    st'.ml1.length + st'.cl1.length + numOf c' = num0 ∧
      (numOf c' == 0 || V.cap k') = true := by
  have hmain := runLoop_inv V draws
    (fun s c => s.ml1.length + s.cl1.length + numOf c = num0)
    (fun s c k hR hdc _ _ _ _ => by
      have hnum : numOf c ≠ 0 := by
        rw [hdone] at hdc
        simpa using hdc
      simp only [accept, hupd, List.length_append, List.length_cons, List.length_nil] at hR ⊢
      omega)
    (fun s c k hR hdc _ _ _ _ => by
      have hnum : numOf c ≠ 0 := by
        rw [hdone] at hdc
        simpa using hdc
      simp only [accept, hupd, List.length_append, List.length_cons, List.length_nil] at hR ⊢
      omega)
    fuel st c k st' c' k' h hinv
  rw [hdone] at hmain
  exact hmain

theorem runLoop_oneCDCount (M : ℕ → ℕ → ℚ) (gene : ℕ) (lc1 mc1 : ℚ)
    (draws : ℕ → ℕ × ℕ) (num : ℕ) (fuel : ℕ) (st' : PairState) (c' : OneCDCtr) (k' : ℕ)
    (h : runLoop (oneCDVariant M gene lc1 mc1) draws fuel PairState.init
      ⟨(num : ℚ) / 2, (num : ℚ) / 2⟩ 0 = some (st', c', k')) :
    (st'.ml1.length ≤ (num + 1) / 2 ∧ st'.cl1.length ≤ (num + 1) / 2) ∧
      (oneCDCap k' = false →
        st'.ml1.length = (num + 1) / 2 ∧ st'.cl1.length = (num + 1) / 2) := by
  have hmain := runLoop_inv (oneCDVariant M gene lc1 mc1) draws
    (fun s c => c.num1 = (num : ℚ) / 2 - s.ml1.length ∧ c.num2 = (num : ℚ) / 2 - s.cl1.length ∧
      (-1 : ℚ) < c.num1 ∧ (-1 : ℚ) < c.num2)
    (fun s c k hR _ _ _ _ hv => by
      have hpos : 0 < c.num1 := oneCDClassify_ml_pos hv
      obtain ⟨h1, h2, h3, h4⟩ := hR
      refine ⟨?_, h2, ?_, h4⟩
      · show c.num1 - 1 = (num : ℚ) / 2 - (s.ml1 ++ [(draws k).1]).length
        rw [h1]
        simp only [List.length_append, List.length_singleton]
        push_cast
        ring
      · show (-1 : ℚ) < c.num1 - 1
        linarith)
    (fun s c k hR _ _ _ _ hv => by
      have hpos : 0 < c.num2 := oneCDClassify_cl_pos hv
      obtain ⟨h1, h2, h3, h4⟩ := hR
      refine ⟨h1, ?_, h3, ?_⟩
      · show c.num2 - 1 = (num : ℚ) / 2 - (s.cl1 ++ [(draws k).1]).length
        rw [h2]
        simp only [List.length_append, List.length_singleton]
        push_cast
        ring
      · show (-1 : ℚ) < c.num2 - 1
        linarith)
    fuel PairState.init ⟨(num : ℚ) / 2, (num : ℚ) / 2⟩ 0 st' c' k' h
    (by
      refine ⟨by simp [PairState.init], by simp [PairState.init], ?_, ?_⟩ <;>
        · show (-1 : ℚ) < (num : ℚ) / 2
          have hnn : (0 : ℚ) ≤ (num : ℚ) / 2 := by positivity
          linarith)
  obtain ⟨⟨h1, h2, h3, h4⟩, hexit⟩ := hmain
  have hmlq : (2 * st'.ml1.length : ℚ) < (num : ℚ) + 2 := by
    rw [h1] at h3
    linarith
  have hclq : (2 * st'.cl1.length : ℚ) < (num : ℚ) + 2 := by
    rw [h2] at h4
    linarith
  have hmln : 2 * st'.ml1.length < num + 2 := by exact_mod_cast hmlq
  have hcln : 2 * st'.cl1.length < num + 2 := by exact_mod_cast hclq
  refine ⟨⟨by omega, by omega⟩, fun hcap => ?_⟩
  have hdone : (decide (c'.num1 ≤ 0) && decide (c'.num2 ≤ 0)) = true := by
    rcases Bool.or_eq_true_iff.mp hexit with hd | hc
    · exact hd
    · have hc2 : oneCDCap k' = true := hc
      rw [hcap] at hc2
      exact absurd hc2 (by simp)
  have hnum1 : c'.num1 ≤ 0 := by
    have := (Bool.and_eq_true_iff.mp hdone).1
    simpa using this
  have hnum2 : c'.num2 ≤ 0 := by
    have := (Bool.and_eq_true_iff.mp hdone).2
    simpa using this
  have hmlge : (num : ℚ) ≤ 2 * st'.ml1.length := by
    rw [h1] at hnum1
    linarith
  have hclge : (num : ℚ) ≤ 2 * st'.cl1.length := by
    rw [h2] at hnum2
    linarith
  have hmlge' : num ≤ 2 * st'.ml1.length := by exact_mod_cast hmlge
  have hclge' : num ≤ 2 * st'.cl1.length := by exact_mod_cast hclge
  exact ⟨by omega, by omega⟩

theorem runLoop_stuck {C : Type} (V : Variant C) (draws : ℕ → ℕ × ℕ) (st : PairState)
    (c : C) (hdone : V.done c = false) (hcap : ∀ k, V.cap k = false)
    (hself : ∀ k, (draws k).1 = (draws k).2) :
    ∀ fuel k, runLoop V draws fuel st c k = none := by
  intro fuel
  induction fuel with
  | zero => intro k; rfl
  | succ n ih =>
    intro k
    rw [runLoop, if_neg (by simp [hdone, hcap]), if_pos (hself k)]
    exact ih (k + 1)

/-! Destructuring lemmas relating each top-level generator to its sampling
loop. -/

theorem optionMap_finalize_eq {C : Type} (o : Option (PairState × C × ℕ))
    (pml pcl : List ℕ) (q : List ℕ × List ℕ × List ℕ × List ℕ)
    (h : o.map (fun r => finalize r.1 pml pcl) = some q) :
    ∃ st' c' k', o = some (st', c', k') ∧ q = finalize st' pml pcl := by
  cases o with
  | none => simp at h
  | some r =>
    obtain ⟨st', c', k'⟩ := r
    exact ⟨st', c', k', rfl, by simpa using h.symm⟩

theorem grp_destruct (y : ℕ → ℕ) (l : List ℕ) (num : ℕ) (er : ℚ) (stream : ℕ → ℕ × ℕ)
    (pml pcl : List ℕ) (fuel : ℕ) (q : List ℕ × List ℕ × List ℕ × List ℕ) (e : ℕ)
    (h : generate_random_pair y l num er stream pml pcl fuel = some (q, e)) :
    ∃ st' c' k',
      runLoop (grpVariant y er num) (choiceDraws l stream) fuel PairState.init
        ⟨num, 0⟩ 0 = some (st', c', k') ∧ q = finalize st' pml pcl := by
  unfold generate_random_pair at h
  cases hrun : runLoop (grpVariant y er num) (choiceDraws l stream) fuel PairState.init
      ⟨num, 0⟩ 0 with
  | none => rw [hrun] at h; simp at h
  | some r =>
    obtain ⟨st', c', k'⟩ := r
    rw [hrun] at h
    refine ⟨st', c', k', rfl, ?_⟩
    have := (Option.some.injEq _ _).mp h
    exact (congrArg Prod.fst this).symm

theorem proteins_destruct (n : ℕ) (dist : ℕ → ℕ → ℚ) (num : ℕ) (ML CL : ℚ)
    (stream : ℕ → ℕ × ℕ) (pml pcl : List ℕ) (fuel : ℕ)
    (q : List ℕ × List ℕ × List ℕ × List ℕ)
    (h : generate_random_pair_from_proteins n dist num ML CL stream pml pcl fuel = some q) :
    ∃ st' c' k',
      runLoop
        (numVariant
          (proteinsClassify dist (proteinsCutoff n dist ML) (proteinsCutoff n dist CL))
          fun _ => false)
        (randintDraws n stream) fuel PairState.init ⟨num⟩ 0 = some (st', c', k') ∧
      q = finalize st' pml pcl := by
  unfold generate_random_pair_from_proteins at h
  exact optionMap_finalize_eq _ pml pcl q h

theorem twoCDs_destruct (M : ℕ → ℕ → ℚ) (ncols num : ℕ) (LC HC : ℚ)
    (stream : ℕ → ℕ × ℕ) (pml pcl : List ℕ) (fuel : ℕ)
    (q : List ℕ × List ℕ × List ℕ × List ℕ)
    (h : generate_random_pair_from_two_CDs M ncols num LC HC stream pml pcl fuel = some q) :
    ∃ st' c' k',
      runLoop
        (numVariant
          (twoCDsClassify M (npPercentile (rowList M ncols 0) LC)
            (npPercentile (rowList M ncols 1) LC) (npPercentile (rowList M ncols 0) HC)
            (npPercentile (rowList M ncols 1) HC))
          twoCDsCap)
        (randintDraws ncols stream) fuel PairState.init ⟨num⟩ 0 = some (st', c', k') ∧
      q = finalize st' pml pcl := by
  unfold generate_random_pair_from_two_CDs at h
  exact optionMap_finalize_eq _ pml pcl q h

theorem oneCD_destruct (M : ℕ → ℕ → ℚ) (ncols num : ℕ) (LC HC : ℚ) (gene : ℕ)
    (stream : ℕ → ℕ × ℕ) (pml pcl : List ℕ) (fuel : ℕ)
    (q : List ℕ × List ℕ × List ℕ × List ℕ)
    (h : generate_random_pair_from_one_CD M ncols num LC HC gene stream pml pcl fuel =
      some q) :
    ∃ st' c' k',
      runLoop
        (oneCDVariant M gene (npPercentile (rowList M ncols gene) LC)
          (npPercentile (rowList M ncols gene) HC))
        (randintDraws ncols stream) fuel PairState.init ⟨(num : ℚ) / 2, (num : ℚ) / 2⟩ 0 =
        some (st', c', k') ∧
      q = finalize st' pml pcl := by
  unfold generate_random_pair_from_one_CD at h
  exact optionMap_finalize_eq _ pml pcl q h

theorem cdMarkers_destruct (m : ℕ → ℕ → ℚ) (ncols num : ℕ) (low1 high1 low2 high2 : ℚ)
    (stream : ℕ → ℕ × ℕ) (pml pcl : List ℕ) (fuel : ℕ)
    (q : List ℕ × List ℕ × List ℕ × List ℕ)
    (h : generate_random_pair_from_CD_markers m ncols num low1 high1 low2 high2 stream
      pml pcl fuel = some q) :
    ∃ st' c' k',
      runLoop (numVariant (cdMarkersClassify m ncols low1 high1 low2 high2) fun _ => false)
        (randintDraws ncols stream) fuel PairState.init ⟨num⟩ 0 = some (st', c', k') ∧
      q = finalize st' pml pcl := by
  unfold generate_random_pair_from_CD_markers at h
  exact optionMap_finalize_eq _ pml pcl q h

theorem embClustering_destruct (n : ℕ) (ypred : ℕ → ℕ) (dist : ℕ → ℕ → ℚ) (num : ℕ)
    (ML CL : ℚ) (stream : ℕ → ℕ × ℕ) (pml pcl : List ℕ) (fuel : ℕ)
    (q : List ℕ × List ℕ × List ℕ × List ℕ)
    (h : generate_random_pair_from_embedding_clustering n ypred dist num ML CL stream
      pml pcl fuel = some q) :
    ∃ st' c' k',
      runLoop
        (numVariant (embClusteringClassify ypred dist (proteinsCutoff n dist CL))
          fun _ => false)
        (randintDraws n stream) fuel PairState.init ⟨num⟩ 0 = some (st', c', k') ∧
      q = finalize st' pml pcl := by
  unfold generate_random_pair_from_embedding_clustering at h
  exact optionMap_finalize_eq _ pml pcl q h

/-! Claim C1. -/

/-- C1 (counterexample): `generate_random_pair` has no attempt cap, and on the
candidate pool `[0]` with `num = 1` every drawn pair is the self-pair `(0, 0)`,
so the loop never returns regardless of how many iterations it is allowed — the
claim that generate_random_pair returns for every input and random stream is
false. -/
theorem c1_counterexample :
    ¬ ∃ fuel r,
      generate_random_pair (fun _ => 0) [0] 1 0 (fun _ => (0, 0)) [] [] fuel = some r := by
  rintro ⟨fuel, r, hr⟩
  unfold generate_random_pair at hr
  rw [runLoop_stuck (grpVariant (fun _ => 0) 0 1) (choiceDraws [0] fun _ => (0, 0))
    PairState.init ⟨1, 0⟩ rfl (fun _ => rfl) (fun _ => rfl) fuel 0] at hr
  simp at hr

/-- C1 (amended): the two variants with an attempt cap terminate on every
input and every random stream: `generate_random_pair_from_two_CDs` returns
within `20000² + 1` loop iterations and `generate_random_pair_from_one_CD`
within `1000000 + 1`, for every matrix, requested count, thresholds, stream
and permutation draws — in particular on inputs whose selection predicates are
unsatisfiable. The four uncapped variants are not covered (see the
counterexample). -/
theorem c1_capped_variants_terminate :
    (∀ (M : ℕ → ℕ → ℚ) (ncols num : ℕ) (LC HC : ℚ) (stream : ℕ → ℕ × ℕ)
        (pml pcl : List ℕ) (fuel : ℕ), 20000 * 20000 < fuel →
        ∃ r, generate_random_pair_from_two_CDs M ncols num LC HC stream pml pcl fuel =
          some r) ∧
    (∀ (M : ℕ → ℕ → ℚ) (ncols num : ℕ) (LC HC : ℚ) (gene : ℕ) (stream : ℕ → ℕ × ℕ)
        (pml pcl : List ℕ) (fuel : ℕ), 1000000 < fuel →
        ∃ r, generate_random_pair_from_one_CD M ncols num LC HC gene stream pml pcl fuel =
          some r) := by
  constructor
  · intro M ncols num LC HC stream pml pcl fuel hfuel
    obtain ⟨f, rfl⟩ : ∃ f, fuel = f + 1 := ⟨fuel - 1, by omega⟩
    obtain ⟨r, hr⟩ := runLoop_terminates
      (numVariant
        (twoCDsClassify M (npPercentile (rowList M ncols 0) LC)
          (npPercentile (rowList M ncols 1) LC) (npPercentile (rowList M ncols 0) HC)
          (npPercentile (rowList M ncols 1) HC))
        twoCDsCap)
      (randintDraws ncols stream) (20000 * 20000) (fun k hk => decide_eq_true hk)
      f 0 PairState.init ⟨num⟩ (by omega)
    refine ⟨finalize r.1 pml pcl, ?_⟩
    simp only [generate_random_pair_from_two_CDs]
    rw [hr]
    rfl
  · intro M ncols num LC HC gene stream pml pcl fuel hfuel
    obtain ⟨f, rfl⟩ : ∃ f, fuel = f + 1 := ⟨fuel - 1, by omega⟩
    obtain ⟨r, hr⟩ := runLoop_terminates
      (oneCDVariant M gene (npPercentile (rowList M ncols gene) LC)
        (npPercentile (rowList M ncols gene) HC))
      (randintDraws ncols stream) 1000000 (fun k hk => decide_eq_true hk)
      f 0 PairState.init ⟨(num : ℚ) / 2, (num : ℚ) / 2⟩ (by omega)
    refine ⟨finalize r.1 pml pcl, ?_⟩
    simp only [generate_random_pair_from_one_CD]
    rw [hr]
    rfl

/-- C1 (witness): the capped termination theorem applied at a concrete input —
a `2 × 2` matrix, an unsatisfiable threshold setup and the constant stream. -/
theorem c1_capped_variants_terminate_witness :
    (∃ r, generate_random_pair_from_two_CDs (fun _ _ => 0) 2 5 20 90 (fun _ => (0, 1))
      [] [] 400000001 = some r) ∧
    (∃ r, generate_random_pair_from_one_CD (fun _ _ => 0) 2 5 20 90 0 (fun _ => (0, 1))
      [] [] 1000001 = some r) :=
  ⟨c1_capped_variants_terminate.1 (fun _ _ => 0) 2 5 20 90 (fun _ => (0, 1)) [] []
      400000001 (by norm_num),
    c1_capped_variants_terminate.2 (fun _ _ => 0) 2 5 20 90 0 (fun _ => (0, 1)) [] []
      1000001 (by norm_num)⟩

/-! Claim C3. -/

/-- C3: for every generator variant, every input and every random stream, no
ordered index pair occurs twice within the returned must-link list: the
candidate is scanned against the accumulated must-link pairs (`check_ind`) and
rejected on a hit, and the final shuffles permute both index lists together, so
the returned `zip ml_ind1 ml_ind2` has no duplicate. -/
theorem c3_must_link_nodup :
    (∀ (y : ℕ → ℕ) (l : List ℕ) (num : ℕ) (er : ℚ) (stream : ℕ → ℕ × ℕ)
        (pml pcl : List ℕ) (fuel : ℕ) (ml1 ml2 cl1 cl2 : List ℕ) (e : ℕ),
      generate_random_pair y l num er stream pml pcl fuel = some ((ml1, ml2, cl1, cl2), e) →
      (ml1.zip ml2).Nodup) ∧
    (∀ (n : ℕ) (dist : ℕ → ℕ → ℚ) (num : ℕ) (ML CL : ℚ) (stream : ℕ → ℕ × ℕ)
        (pml pcl : List ℕ) (fuel : ℕ) (ml1 ml2 cl1 cl2 : List ℕ),
      generate_random_pair_from_proteins n dist num ML CL stream pml pcl fuel =
        some (ml1, ml2, cl1, cl2) → (ml1.zip ml2).Nodup) ∧
    (∀ (M : ℕ → ℕ → ℚ) (ncols num : ℕ) (LC HC : ℚ) (stream : ℕ → ℕ × ℕ)
        (pml pcl : List ℕ) (fuel : ℕ) (ml1 ml2 cl1 cl2 : List ℕ),
      generate_random_pair_from_two_CDs M ncols num LC HC stream pml pcl fuel =
        some (ml1, ml2, cl1, cl2) → (ml1.zip ml2).Nodup) ∧
    (∀ (M : ℕ → ℕ → ℚ) (ncols num : ℕ) (LC HC : ℚ) (gene : ℕ) (stream : ℕ → ℕ × ℕ)
        (pml pcl : List ℕ) (fuel : ℕ) (ml1 ml2 cl1 cl2 : List ℕ),
      generate_random_pair_from_one_CD M ncols num LC HC gene stream pml pcl fuel =
        some (ml1, ml2, cl1, cl2) → (ml1.zip ml2).Nodup) ∧
    (∀ (m : ℕ → ℕ → ℚ) (ncols num : ℕ) (low1 high1 low2 high2 : ℚ) (stream : ℕ → ℕ × ℕ)
        (pml pcl : List ℕ) (fuel : ℕ) (ml1 ml2 cl1 cl2 : List ℕ),
      generate_random_pair_from_CD_markers m ncols num low1 high1 low2 high2 stream pml
        pcl fuel = some (ml1, ml2, cl1, cl2) → (ml1.zip ml2).Nodup) ∧
    (∀ (n : ℕ) (ypred : ℕ → ℕ) (dist : ℕ → ℕ → ℚ) (num : ℕ) (ML CL : ℚ)
        (stream : ℕ → ℕ × ℕ) (pml pcl : List ℕ) (fuel : ℕ) (ml1 ml2 cl1 cl2 : List ℕ),
      generate_random_pair_from_embedding_clustering n ypred dist num ML CL stream pml
        pcl fuel = some (ml1, ml2, cl1, cl2) → (ml1.zip ml2).Nodup) := by
  refine ⟨?_, ?_, ?_, ?_, ?_, ?_⟩
  · intro y l num er stream pml pcl fuel ml1 ml2 cl1 cl2 e h
    obtain ⟨st', c', k', hrun, heq⟩ := grp_destruct y l num er stream pml pcl fuel _ e h
    have props := runLoop_finalize_props _ _ (fun _ => True) (fun _ => ⟨trivial, trivial⟩)
      _ _ _ _ _ pml pcl hrun
    have h1 : ml1 = (finalize st' pml pcl).1 := congrArg (fun x => x.1) heq
    have h2 : ml2 = (finalize st' pml pcl).2.1 := congrArg (fun x => x.2.1) heq
    rw [h1, h2]
    exact props.1
  · intro n dist num ML CL stream pml pcl fuel ml1 ml2 cl1 cl2 h
    obtain ⟨st', c', k', hrun, heq⟩ :=
      proteins_destruct n dist num ML CL stream pml pcl fuel _ h
    have props := runLoop_finalize_props _ _ (fun _ => True) (fun _ => ⟨trivial, trivial⟩)
      _ _ _ _ _ pml pcl hrun
    have h1 : ml1 = (finalize st' pml pcl).1 := congrArg (fun x => x.1) heq
    have h2 : ml2 = (finalize st' pml pcl).2.1 := congrArg (fun x => x.2.1) heq
    rw [h1, h2]
    exact props.1
  · intro M ncols num LC HC stream pml pcl fuel ml1 ml2 cl1 cl2 h
    obtain ⟨st', c', k', hrun, heq⟩ :=
      twoCDs_destruct M ncols num LC HC stream pml pcl fuel _ h
    have props := runLoop_finalize_props _ _ (fun _ => True) (fun _ => ⟨trivial, trivial⟩)
      _ _ _ _ _ pml pcl hrun
    have h1 : ml1 = (finalize st' pml pcl).1 := congrArg (fun x => x.1) heq
    have h2 : ml2 = (finalize st' pml pcl).2.1 := congrArg (fun x => x.2.1) heq
    rw [h1, h2]
    exact props.1
  · intro M ncols num LC HC gene stream pml pcl fuel ml1 ml2 cl1 cl2 h
    obtain ⟨st', c', k', hrun, heq⟩ :=
      oneCD_destruct M ncols num LC HC gene stream pml pcl fuel _ h
    have props := runLoop_finalize_props _ _ (fun _ => True) (fun _ => ⟨trivial, trivial⟩)
      _ _ _ _ _ pml pcl hrun
    have h1 : ml1 = (finalize st' pml pcl).1 := congrArg (fun x => x.1) heq
    have h2 : ml2 = (finalize st' pml pcl).2.1 := congrArg (fun x => x.2.1) heq
    rw [h1, h2]
    exact props.1
  · intro m ncols num low1 high1 low2 high2 stream pml pcl fuel ml1 ml2 cl1 cl2 h
    obtain ⟨st', c', k', hrun, heq⟩ :=
      cdMarkers_destruct m ncols num low1 high1 low2 high2 stream pml pcl fuel _ h
    have props := runLoop_finalize_props _ _ (fun _ => True) (fun _ => ⟨trivial, trivial⟩)
      _ _ _ _ _ pml pcl hrun
    have h1 : ml1 = (finalize st' pml pcl).1 := congrArg (fun x => x.1) heq
    have h2 : ml2 = (finalize st' pml pcl).2.1 := congrArg (fun x => x.2.1) heq
    rw [h1, h2]
    exact props.1
  · intro n ypred dist num ML CL stream pml pcl fuel ml1 ml2 cl1 cl2 h
    obtain ⟨st', c', k', hrun, heq⟩ :=
      embClustering_destruct n ypred dist num ML CL stream pml pcl fuel _ h
    have props := runLoop_finalize_props _ _ (fun _ => True) (fun _ => ⟨trivial, trivial⟩)
      _ _ _ _ _ pml pcl hrun
    have h1 : ml1 = (finalize st' pml pcl).1 := congrArg (fun x => x.1) heq
    have h2 : ml2 = (finalize st' pml pcl).2.1 := congrArg (fun x => x.2.1) heq
    rw [h1, h2]
    exact props.1

/-- C3 (witness): the must-link duplicate-freedom theorem applied to a concrete
completed run of `generate_random_pair` on pool `[0, 1, 2]` with labels `id`. -/
theorem c3_must_link_nodup_witness :
    ([(1 : ℕ)].zip [(2 : ℕ)]).Nodup :=
  c3_must_link_nodup.1 (fun _ => 0) [0, 1, 2] 1 0
    (fun _ => (1, 2)) [0] [] 2 [1] [2] [] [] 0 (by with_unfolding_all decide)

/-! Claim C4. -/

/-- C4: for every generator variant, input and random stream, every returned
must-link pair and every returned cannot-link pair references two distinct
sample indices: candidates with `tmp1 == tmp2` are skipped before
classification, and the final shuffles keep the two index lists aligned. -/
theorem c4_no_self_pairs :
    (∀ (y : ℕ → ℕ) (l : List ℕ) (num : ℕ) (er : ℚ) (stream : ℕ → ℕ × ℕ)
        (pml pcl : List ℕ) (fuel : ℕ) (ml1 ml2 cl1 cl2 : List ℕ) (e : ℕ),
      generate_random_pair y l num er stream pml pcl fuel = some ((ml1, ml2, cl1, cl2), e) →
      (∀ pr ∈ ml1.zip ml2, pr.1 ≠ pr.2) ∧ ∀ pr ∈ cl1.zip cl2, pr.1 ≠ pr.2) ∧
    (∀ (n : ℕ) (dist : ℕ → ℕ → ℚ) (num : ℕ) (ML CL : ℚ) (stream : ℕ → ℕ × ℕ)
        (pml pcl : List ℕ) (fuel : ℕ) (ml1 ml2 cl1 cl2 : List ℕ),
      generate_random_pair_from_proteins n dist num ML CL stream pml pcl fuel =
        some (ml1, ml2, cl1, cl2) →
      (∀ pr ∈ ml1.zip ml2, pr.1 ≠ pr.2) ∧ ∀ pr ∈ cl1.zip cl2, pr.1 ≠ pr.2) ∧
    (∀ (M : ℕ → ℕ → ℚ) (ncols num : ℕ) (LC HC : ℚ) (stream : ℕ → ℕ × ℕ)
        (pml pcl : List ℕ) (fuel : ℕ) (ml1 ml2 cl1 cl2 : List ℕ),
      generate_random_pair_from_two_CDs M ncols num LC HC stream pml pcl fuel =
        some (ml1, ml2, cl1, cl2) →
      (∀ pr ∈ ml1.zip ml2, pr.1 ≠ pr.2) ∧ ∀ pr ∈ cl1.zip cl2, pr.1 ≠ pr.2) ∧
    (∀ (M : ℕ → ℕ → ℚ) (ncols num : ℕ) (LC HC : ℚ) (gene : ℕ) (stream : ℕ → ℕ × ℕ)
        (pml pcl : List ℕ) (fuel : ℕ) (ml1 ml2 cl1 cl2 : List ℕ),
      generate_random_pair_from_one_CD M ncols num LC HC gene stream pml pcl fuel =
        some (ml1, ml2, cl1, cl2) →
      (∀ pr ∈ ml1.zip ml2, pr.1 ≠ pr.2) ∧ ∀ pr ∈ cl1.zip cl2, pr.1 ≠ pr.2) ∧
    (∀ (m : ℕ → ℕ → ℚ) (ncols num : ℕ) (low1 high1 low2 high2 : ℚ) (stream : ℕ → ℕ × ℕ)
        (pml pcl : List ℕ) (fuel : ℕ) (ml1 ml2 cl1 cl2 : List ℕ),
      generate_random_pair_from_CD_markers m ncols num low1 high1 low2 high2 stream pml
        pcl fuel = some (ml1, ml2, cl1, cl2) →
      (∀ pr ∈ ml1.zip ml2, pr.1 ≠ pr.2) ∧ ∀ pr ∈ cl1.zip cl2, pr.1 ≠ pr.2) ∧
    (∀ (n : ℕ) (ypred : ℕ → ℕ) (dist : ℕ → ℕ → ℚ) (num : ℕ) (ML CL : ℚ)
        (stream : ℕ → ℕ × ℕ) (pml pcl : List ℕ) (fuel : ℕ) (ml1 ml2 cl1 cl2 : List ℕ),
      generate_random_pair_from_embedding_clustering n ypred dist num ML CL stream pml
        pcl fuel = some (ml1, ml2, cl1, cl2) →
      (∀ pr ∈ ml1.zip ml2, pr.1 ≠ pr.2) ∧ ∀ pr ∈ cl1.zip cl2, pr.1 ≠ pr.2) := by
  refine ⟨?_, ?_, ?_, ?_, ?_, ?_⟩
  · intro y l num er stream pml pcl fuel ml1 ml2 cl1 cl2 e h
    obtain ⟨st', c', k', hrun, heq⟩ := grp_destruct y l num er stream pml pcl fuel _ e h
    have props := runLoop_finalize_props _ _ (fun _ => True) (fun _ => ⟨trivial, trivial⟩)
      _ _ _ _ _ pml pcl hrun
    have h1 : ml1 = (finalize st' pml pcl).1 := congrArg (fun x => x.1) heq
    have h2 : ml2 = (finalize st' pml pcl).2.1 := congrArg (fun x => x.2.1) heq
    have h3 : cl1 = (finalize st' pml pcl).2.2.1 := congrArg (fun x => x.2.2.1) heq
    have h4 : cl2 = (finalize st' pml pcl).2.2.2 := congrArg (fun x => x.2.2.2) heq
    rw [h1, h2, h3, h4]
    exact ⟨props.2.1, props.2.2.1⟩
  · intro n dist num ML CL stream pml pcl fuel ml1 ml2 cl1 cl2 h
    obtain ⟨st', c', k', hrun, heq⟩ :=
      proteins_destruct n dist num ML CL stream pml pcl fuel _ h
    have props := runLoop_finalize_props _ _ (fun _ => True) (fun _ => ⟨trivial, trivial⟩)
      _ _ _ _ _ pml pcl hrun
    have h1 : ml1 = (finalize st' pml pcl).1 := congrArg (fun x => x.1) heq
    have h2 : ml2 = (finalize st' pml pcl).2.1 := congrArg (fun x => x.2.1) heq
    have h3 : cl1 = (finalize st' pml pcl).2.2.1 := congrArg (fun x => x.2.2.1) heq
    have h4 : cl2 = (finalize st' pml pcl).2.2.2 := congrArg (fun x => x.2.2.2) heq
    rw [h1, h2, h3, h4]
    exact ⟨props.2.1, props.2.2.1⟩
  · intro M ncols num LC HC stream pml pcl fuel ml1 ml2 cl1 cl2 h
    obtain ⟨st', c', k', hrun, heq⟩ :=
      twoCDs_destruct M ncols num LC HC stream pml pcl fuel _ h
    have props := runLoop_finalize_props _ _ (fun _ => True) (fun _ => ⟨trivial, trivial⟩)
      _ _ _ _ _ pml pcl hrun
    have h1 : ml1 = (finalize st' pml pcl).1 := congrArg (fun x => x.1) heq
    have h2 : ml2 = (finalize st' pml pcl).2.1 := congrArg (fun x => x.2.1) heq
    have h3 : cl1 = (finalize st' pml pcl).2.2.1 := congrArg (fun x => x.2.2.1) heq
    have h4 : cl2 = (finalize st' pml pcl).2.2.2 := congrArg (fun x => x.2.2.2) heq
    rw [h1, h2, h3, h4]
    exact ⟨props.2.1, props.2.2.1⟩
  · intro M ncols num LC HC gene stream pml pcl fuel ml1 ml2 cl1 cl2 h
    obtain ⟨st', c', k', hrun, heq⟩ :=
      oneCD_destruct M ncols num LC HC gene stream pml pcl fuel _ h
    have props := runLoop_finalize_props _ _ (fun _ => True) (fun _ => ⟨trivial, trivial⟩)
      _ _ _ _ _ pml pcl hrun
    have h1 : ml1 = (finalize st' pml pcl).1 := congrArg (fun x => x.1) heq
    have h2 : ml2 = (finalize st' pml pcl).2.1 := congrArg (fun x => x.2.1) heq
    have h3 : cl1 = (finalize st' pml pcl).2.2.1 := congrArg (fun x => x.2.2.1) heq
    have h4 : cl2 = (finalize st' pml pcl).2.2.2 := congrArg (fun x => x.2.2.2) heq
    rw [h1, h2, h3, h4]
    exact ⟨props.2.1, props.2.2.1⟩
  · intro m ncols num low1 high1 low2 high2 stream pml pcl fuel ml1 ml2 cl1 cl2 h
    obtain ⟨st', c', k', hrun, heq⟩ :=
      cdMarkers_destruct m ncols num low1 high1 low2 high2 stream pml pcl fuel _ h
    have props := runLoop_finalize_props _ _ (fun _ => True) (fun _ => ⟨trivial, trivial⟩)
      _ _ _ _ _ pml pcl hrun
    have h1 : ml1 = (finalize st' pml pcl).1 := congrArg (fun x => x.1) heq
    have h2 : ml2 = (finalize st' pml pcl).2.1 := congrArg (fun x => x.2.1) heq
    have h3 : cl1 = (finalize st' pml pcl).2.2.1 := congrArg (fun x => x.2.2.1) heq
    have h4 : cl2 = (finalize st' pml pcl).2.2.2 := congrArg (fun x => x.2.2.2) heq
    rw [h1, h2, h3, h4]
    exact ⟨props.2.1, props.2.2.1⟩
  · intro n ypred dist num ML CL stream pml pcl fuel ml1 ml2 cl1 cl2 h
    obtain ⟨st', c', k', hrun, heq⟩ :=
      embClustering_destruct n ypred dist num ML CL stream pml pcl fuel _ h
    have props := runLoop_finalize_props _ _ (fun _ => True) (fun _ => ⟨trivial, trivial⟩)
      _ _ _ _ _ pml pcl hrun
    have h1 : ml1 = (finalize st' pml pcl).1 := congrArg (fun x => x.1) heq
    have h2 : ml2 = (finalize st' pml pcl).2.1 := congrArg (fun x => x.2.1) heq
    have h3 : cl1 = (finalize st' pml pcl).2.2.1 := congrArg (fun x => x.2.2.1) heq
    have h4 : cl2 = (finalize st' pml pcl).2.2.2 := congrArg (fun x => x.2.2.2) heq
    rw [h1, h2, h3, h4]
    exact ⟨props.2.1, props.2.2.1⟩

/-- C4 (witness): the self-pair exclusion theorem applied to the same concrete
completed run of `generate_random_pair` as the duplicate-freedom witness. -/
theorem c4_no_self_pairs_witness :
    (∀ pr ∈ [(1 : ℕ)].zip [(2 : ℕ)], pr.1 ≠ pr.2) ∧
      ∀ pr ∈ ([] : List ℕ).zip ([] : List ℕ), pr.1 ≠ pr.2 :=
  c4_no_self_pairs.1 (fun _ => 0) [0, 1, 2] 1 0 (fun _ => (1, 2)) [0] [] 2 [1] [2] [] [] 0
    (by with_unfolding_all decide)

/-! Claim C10. -/

/-- C10: every index in the returned must-link and cannot-link arrays is a
valid sample index of the supplied data — an element of the candidate pool
`label_cell_indx` for `generate_random_pair` (nonempty, as `random.choice`
requires), below the row count for the row-oriented variants and below the
column count for the column-oriented variants (positive, as
`random.randint(0, n - 1)` requires). -/
theorem c10_indices_in_range :
    (∀ (y : ℕ → ℕ) (l : List ℕ) (num : ℕ) (er : ℚ) (stream : ℕ → ℕ × ℕ)
        (pml pcl : List ℕ) (fuel : ℕ) (ml1 ml2 cl1 cl2 : List ℕ) (e : ℕ), l ≠ [] →
      generate_random_pair y l num er stream pml pcl fuel = some ((ml1, ml2, cl1, cl2), e) →
      (∀ x ∈ ml1, x ∈ l) ∧ (∀ x ∈ ml2, x ∈ l) ∧ (∀ x ∈ cl1, x ∈ l) ∧
        ∀ x ∈ cl2, x ∈ l) ∧
    (∀ (n : ℕ) (dist : ℕ → ℕ → ℚ) (num : ℕ) (ML CL : ℚ) (stream : ℕ → ℕ × ℕ)
        (pml pcl : List ℕ) (fuel : ℕ) (ml1 ml2 cl1 cl2 : List ℕ), 0 < n →
      generate_random_pair_from_proteins n dist num ML CL stream pml pcl fuel =
        some (ml1, ml2, cl1, cl2) →
      (∀ x ∈ ml1, x < n) ∧ (∀ x ∈ ml2, x < n) ∧ (∀ x ∈ cl1, x < n) ∧
        ∀ x ∈ cl2, x < n) ∧
    (∀ (M : ℕ → ℕ → ℚ) (ncols num : ℕ) (LC HC : ℚ) (stream : ℕ → ℕ × ℕ)
        (pml pcl : List ℕ) (fuel : ℕ) (ml1 ml2 cl1 cl2 : List ℕ), 0 < ncols →
      generate_random_pair_from_two_CDs M ncols num LC HC stream pml pcl fuel =
        some (ml1, ml2, cl1, cl2) →
      (∀ x ∈ ml1, x < ncols) ∧ (∀ x ∈ ml2, x < ncols) ∧ (∀ x ∈ cl1, x < ncols) ∧
        ∀ x ∈ cl2, x < ncols) ∧
    (∀ (M : ℕ → ℕ → ℚ) (ncols num : ℕ) (LC HC : ℚ) (gene : ℕ) (stream : ℕ → ℕ × ℕ)
        (pml pcl : List ℕ) (fuel : ℕ) (ml1 ml2 cl1 cl2 : List ℕ), 0 < ncols →
      generate_random_pair_from_one_CD M ncols num LC HC gene stream pml pcl fuel =
        some (ml1, ml2, cl1, cl2) →
      (∀ x ∈ ml1, x < ncols) ∧ (∀ x ∈ ml2, x < ncols) ∧ (∀ x ∈ cl1, x < ncols) ∧
        ∀ x ∈ cl2, x < ncols) ∧
    (∀ (m : ℕ → ℕ → ℚ) (ncols num : ℕ) (low1 high1 low2 high2 : ℚ) (stream : ℕ → ℕ × ℕ)
        (pml pcl : List ℕ) (fuel : ℕ) (ml1 ml2 cl1 cl2 : List ℕ), 0 < ncols →
      generate_random_pair_from_CD_markers m ncols num low1 high1 low2 high2 stream pml
        pcl fuel = some (ml1, ml2, cl1, cl2) →
      (∀ x ∈ ml1, x < ncols) ∧ (∀ x ∈ ml2, x < ncols) ∧ (∀ x ∈ cl1, x < ncols) ∧
        ∀ x ∈ cl2, x < ncols) ∧
    (∀ (n : ℕ) (ypred : ℕ → ℕ) (dist : ℕ → ℕ → ℚ) (num : ℕ) (ML CL : ℚ)
        (stream : ℕ → ℕ × ℕ) (pml pcl : List ℕ) (fuel : ℕ) (ml1 ml2 cl1 cl2 : List ℕ),
      0 < n →
      generate_random_pair_from_embedding_clustering n ypred dist num ML CL stream pml
        pcl fuel = some (ml1, ml2, cl1, cl2) →
      (∀ x ∈ ml1, x < n) ∧ (∀ x ∈ ml2, x < n) ∧ (∀ x ∈ cl1, x < n) ∧
        ∀ x ∈ cl2, x < n) := by
  refine ⟨?_, ?_, ?_, ?_, ?_, ?_⟩
  · intro y l num er stream pml pcl fuel ml1 ml2 cl1 cl2 e hl h
    obtain ⟨st', c', k', hrun, heq⟩ := grp_destruct y l num er stream pml pcl fuel _ e h
    have props := runLoop_finalize_props _ _ (· ∈ l)
      (fun _ => ⟨choice_mem l _ hl, choice_mem l _ hl⟩) _ _ _ _ _ pml pcl hrun
    have h1 : ml1 = (finalize st' pml pcl).1 := congrArg (fun x => x.1) heq
    have h2 : ml2 = (finalize st' pml pcl).2.1 := congrArg (fun x => x.2.1) heq
    have h3 : cl1 = (finalize st' pml pcl).2.2.1 := congrArg (fun x => x.2.2.1) heq
    have h4 : cl2 = (finalize st' pml pcl).2.2.2 := congrArg (fun x => x.2.2.2) heq
    rw [h1, h2, h3, h4]
    exact ⟨props.2.2.2.1, props.2.2.2.2.1, props.2.2.2.2.2.1, props.2.2.2.2.2.2⟩
  · intro n dist num ML CL stream pml pcl fuel ml1 ml2 cl1 cl2 hn h
    obtain ⟨st', c', k', hrun, heq⟩ :=
      proteins_destruct n dist num ML CL stream pml pcl fuel _ h
    have props := runLoop_finalize_props _ _ (· < n)
      (fun _ => ⟨randint_lt n _ hn, randint_lt n _ hn⟩) _ _ _ _ _ pml pcl hrun
    have h1 : ml1 = (finalize st' pml pcl).1 := congrArg (fun x => x.1) heq
    have h2 : ml2 = (finalize st' pml pcl).2.1 := congrArg (fun x => x.2.1) heq
    have h3 : cl1 = (finalize st' pml pcl).2.2.1 := congrArg (fun x => x.2.2.1) heq
    have h4 : cl2 = (finalize st' pml pcl).2.2.2 := congrArg (fun x => x.2.2.2) heq
    rw [h1, h2, h3, h4]
    exact ⟨props.2.2.2.1, props.2.2.2.2.1, props.2.2.2.2.2.1, props.2.2.2.2.2.2⟩
  · intro M ncols num LC HC stream pml pcl fuel ml1 ml2 cl1 cl2 hn h
    obtain ⟨st', c', k', hrun, heq⟩ :=
      twoCDs_destruct M ncols num LC HC stream pml pcl fuel _ h
    have props := runLoop_finalize_props _ _ (· < ncols)
      (fun _ => ⟨randint_lt ncols _ hn, randint_lt ncols _ hn⟩) _ _ _ _ _ pml pcl hrun
    have h1 : ml1 = (finalize st' pml pcl).1 := congrArg (fun x => x.1) heq
    have h2 : ml2 = (finalize st' pml pcl).2.1 := congrArg (fun x => x.2.1) heq
    have h3 : cl1 = (finalize st' pml pcl).2.2.1 := congrArg (fun x => x.2.2.1) heq
    have h4 : cl2 = (finalize st' pml pcl).2.2.2 := congrArg (fun x => x.2.2.2) heq
    rw [h1, h2, h3, h4]
    exact ⟨props.2.2.2.1, props.2.2.2.2.1, props.2.2.2.2.2.1, props.2.2.2.2.2.2⟩
  · intro M ncols num LC HC gene stream pml pcl fuel ml1 ml2 cl1 cl2 hn h
    obtain ⟨st', c', k', hrun, heq⟩ :=
      oneCD_destruct M ncols num LC HC gene stream pml pcl fuel _ h
    have props := runLoop_finalize_props _ _ (· < ncols)
      (fun _ => ⟨randint_lt ncols _ hn, randint_lt ncols _ hn⟩) _ _ _ _ _ pml pcl hrun
    have h1 : ml1 = (finalize st' pml pcl).1 := congrArg (fun x => x.1) heq
    have h2 : ml2 = (finalize st' pml pcl).2.1 := congrArg (fun x => x.2.1) heq
    have h3 : cl1 = (finalize st' pml pcl).2.2.1 := congrArg (fun x => x.2.2.1) heq
    have h4 : cl2 = (finalize st' pml pcl).2.2.2 := congrArg (fun x => x.2.2.2) heq
    rw [h1, h2, h3, h4]
    exact ⟨props.2.2.2.1, props.2.2.2.2.1, props.2.2.2.2.2.1, props.2.2.2.2.2.2⟩
  · intro m ncols num low1 high1 low2 high2 stream pml pcl fuel ml1 ml2 cl1 cl2 hn h
    obtain ⟨st', c', k', hrun, heq⟩ :=
      cdMarkers_destruct m ncols num low1 high1 low2 high2 stream pml pcl fuel _ h
    have props := runLoop_finalize_props _ _ (· < ncols)
      (fun _ => ⟨randint_lt ncols _ hn, randint_lt ncols _ hn⟩) _ _ _ _ _ pml pcl hrun
    have h1 : ml1 = (finalize st' pml pcl).1 := congrArg (fun x => x.1) heq
    have h2 : ml2 = (finalize st' pml pcl).2.1 := congrArg (fun x => x.2.1) heq
    have h3 : cl1 = (finalize st' pml pcl).2.2.1 := congrArg (fun x => x.2.2.1) heq
    have h4 : cl2 = (finalize st' pml pcl).2.2.2 := congrArg (fun x => x.2.2.2) heq
    rw [h1, h2, h3, h4]
    exact ⟨props.2.2.2.1, props.2.2.2.2.1, props.2.2.2.2.2.1, props.2.2.2.2.2.2⟩
  · intro n ypred dist num ML CL stream pml pcl fuel ml1 ml2 cl1 cl2 hn h
    obtain ⟨st', c', k', hrun, heq⟩ :=
      embClustering_destruct n ypred dist num ML CL stream pml pcl fuel _ h
    have props := runLoop_finalize_props _ _ (· < n)
      (fun _ => ⟨randint_lt n _ hn, randint_lt n _ hn⟩) _ _ _ _ _ pml pcl hrun
    have h1 : ml1 = (finalize st' pml pcl).1 := congrArg (fun x => x.1) heq
    have h2 : ml2 = (finalize st' pml pcl).2.1 := congrArg (fun x => x.2.1) heq
    have h3 : cl1 = (finalize st' pml pcl).2.2.1 := congrArg (fun x => x.2.2.1) heq
    have h4 : cl2 = (finalize st' pml pcl).2.2.2 := congrArg (fun x => x.2.2.2) heq
    rw [h1, h2, h3, h4]
    exact ⟨props.2.2.2.1, props.2.2.2.2.1, props.2.2.2.2.2.1, props.2.2.2.2.2.2⟩

/-- C10 (witness): the index-validity theorem applied to the concrete completed
run of `generate_random_pair` on the nonempty pool `[0, 1, 2]`. -/
theorem c10_indices_in_range_witness :
    (∀ x ∈ [(1 : ℕ)], x ∈ [0, 1, 2]) ∧ (∀ x ∈ [(2 : ℕ)], x ∈ [0, 1, 2]) ∧
      (∀ x ∈ ([] : List ℕ), x ∈ [0, 1, 2]) ∧ ∀ x ∈ ([] : List ℕ), x ∈ [(0 : ℕ), 1, 2] :=
  c10_indices_in_range.1 (fun _ => 0) [0, 1, 2] 1 0 (fun _ => (1, 2)) [0] [] 2
    [1] [2] [] [] 0 (by decide) (by with_unfolding_all decide)

/-! Claim C7. -/

theorem finalize_lengths (st : PairState) (pml pcl : List ℕ) :
    (finalize st pml pcl).1.length = st.ml1.length ∧
    (finalize st pml pcl).2.1.length = st.ml1.length ∧
    (finalize st pml pcl).2.2.1.length = st.cl1.length ∧
    (finalize st pml pcl).2.2.2.length = st.cl1.length := by
  refine ⟨?_, ?_, ?_, ?_⟩ <;>
    simp [finalize, applyPerm_length, npPermutation_length]

/-- C7: for every generator variant, the returned `ml_ind1` and `ml_ind2` have
equal length and, read as index pairs, are a permutation of the must-link pairs
accepted during sampling (the accumulated `zip ml_ind1 ml_ind2` of the loop) —
one `np.random.permutation` draw indexes both arrays; the same holds for
`cl_ind1/cl_ind2` with an independent second draw. -/
theorem c7_returned_pairs_permutation :
    (∀ (y : ℕ → ℕ) (l : List ℕ) (num : ℕ) (er : ℚ) (stream : ℕ → ℕ × ℕ)
        (pml pcl : List ℕ) (fuel : ℕ) (ml1 ml2 cl1 cl2 : List ℕ) (e : ℕ),
      generate_random_pair y l num er stream pml pcl fuel = some ((ml1, ml2, cl1, cl2), e) →
      ml1.length = ml2.length ∧ cl1.length = cl2.length ∧
      ∃ st' c' k',
        runLoop (grpVariant y er num) (choiceDraws l stream) fuel PairState.init
          ⟨num, 0⟩ 0 = some (st', c', k') ∧
        List.Perm (ml1.zip ml2) (st'.ml1.zip st'.ml2) ∧
        List.Perm (cl1.zip cl2) (st'.cl1.zip st'.cl2)) ∧
    (∀ (n : ℕ) (dist : ℕ → ℕ → ℚ) (num : ℕ) (ML CL : ℚ) (stream : ℕ → ℕ × ℕ)
        (pml pcl : List ℕ) (fuel : ℕ) (ml1 ml2 cl1 cl2 : List ℕ),
      generate_random_pair_from_proteins n dist num ML CL stream pml pcl fuel =
        some (ml1, ml2, cl1, cl2) →
      ml1.length = ml2.length ∧ cl1.length = cl2.length ∧
      ∃ st' c' k',
        runLoop
          (numVariant
            (proteinsClassify dist (proteinsCutoff n dist ML) (proteinsCutoff n dist CL))
            fun _ => false)
          (randintDraws n stream) fuel PairState.init ⟨num⟩ 0 = some (st', c', k') ∧
        List.Perm (ml1.zip ml2) (st'.ml1.zip st'.ml2) ∧
        List.Perm (cl1.zip cl2) (st'.cl1.zip st'.cl2)) ∧
    (∀ (M : ℕ → ℕ → ℚ) (ncols num : ℕ) (LC HC : ℚ) (stream : ℕ → ℕ × ℕ)
        (pml pcl : List ℕ) (fuel : ℕ) (ml1 ml2 cl1 cl2 : List ℕ),
      generate_random_pair_from_two_CDs M ncols num LC HC stream pml pcl fuel =
        some (ml1, ml2, cl1, cl2) →
      ml1.length = ml2.length ∧ cl1.length = cl2.length ∧
      ∃ st' c' k',
        runLoop
          (numVariant
            (twoCDsClassify M (npPercentile (rowList M ncols 0) LC)
              (npPercentile (rowList M ncols 1) LC) (npPercentile (rowList M ncols 0) HC)
              (npPercentile (rowList M ncols 1) HC))
            twoCDsCap)
          (randintDraws ncols stream) fuel PairState.init ⟨num⟩ 0 = some (st', c', k') ∧
        List.Perm (ml1.zip ml2) (st'.ml1.zip st'.ml2) ∧
        List.Perm (cl1.zip cl2) (st'.cl1.zip st'.cl2)) ∧
    (∀ (M : ℕ → ℕ → ℚ) (ncols num : ℕ) (LC HC : ℚ) (gene : ℕ) (stream : ℕ → ℕ × ℕ)
        (pml pcl : List ℕ) (fuel : ℕ) (ml1 ml2 cl1 cl2 : List ℕ),
      generate_random_pair_from_one_CD M ncols num LC HC gene stream pml pcl fuel =
        some (ml1, ml2, cl1, cl2) →
      ml1.length = ml2.length ∧ cl1.length = cl2.length ∧
      ∃ st' c' k',
        runLoop
          (oneCDVariant M gene (npPercentile (rowList M ncols gene) LC)
            (npPercentile (rowList M ncols gene) HC))
          (randintDraws ncols stream) fuel PairState.init
          ⟨(num : ℚ) / 2, (num : ℚ) / 2⟩ 0 = some (st', c', k') ∧
        List.Perm (ml1.zip ml2) (st'.ml1.zip st'.ml2) ∧
        List.Perm (cl1.zip cl2) (st'.cl1.zip st'.cl2)) ∧
    (∀ (m : ℕ → ℕ → ℚ) (ncols num : ℕ) (low1 high1 low2 high2 : ℚ) (stream : ℕ → ℕ × ℕ)
        (pml pcl : List ℕ) (fuel : ℕ) (ml1 ml2 cl1 cl2 : List ℕ),
      generate_random_pair_from_CD_markers m ncols num low1 high1 low2 high2 stream pml
        pcl fuel = some (ml1, ml2, cl1, cl2) →
      ml1.length = ml2.length ∧ cl1.length = cl2.length ∧
      ∃ st' c' k',
        runLoop (numVariant (cdMarkersClassify m ncols low1 high1 low2 high2) fun _ => false)
          (randintDraws ncols stream) fuel PairState.init ⟨num⟩ 0 = some (st', c', k') ∧
        List.Perm (ml1.zip ml2) (st'.ml1.zip st'.ml2) ∧
        List.Perm (cl1.zip cl2) (st'.cl1.zip st'.cl2)) ∧
    (∀ (n : ℕ) (ypred : ℕ → ℕ) (dist : ℕ → ℕ → ℚ) (num : ℕ) (ML CL : ℚ)
        (stream : ℕ → ℕ × ℕ) (pml pcl : List ℕ) (fuel : ℕ) (ml1 ml2 cl1 cl2 : List ℕ),
      generate_random_pair_from_embedding_clustering n ypred dist num ML CL stream pml
        pcl fuel = some (ml1, ml2, cl1, cl2) →
      ml1.length = ml2.length ∧ cl1.length = cl2.length ∧
      ∃ st' c' k',
        runLoop
          (numVariant (embClusteringClassify ypred dist (proteinsCutoff n dist CL))
            fun _ => false)
          (randintDraws n stream) fuel PairState.init ⟨num⟩ 0 = some (st', c', k') ∧
        List.Perm (ml1.zip ml2) (st'.ml1.zip st'.ml2) ∧
        List.Perm (cl1.zip cl2) (st'.cl1.zip st'.cl2)) := by
  have main : ∀ {C : Type} (V : Variant C) (draws : ℕ → ℕ × ℕ) (c0 : C) (fuel : ℕ)
      (st' : PairState) (c' : C) (k' : ℕ) (pml pcl ml1 ml2 cl1 cl2 : List ℕ),
      runLoop V draws fuel PairState.init c0 0 = some (st', c', k') →
      (ml1, ml2, cl1, cl2) = finalize st' pml pcl →
      ml1.length = ml2.length ∧ cl1.length = cl2.length ∧
        List.Perm (ml1.zip ml2) (st'.ml1.zip st'.ml2) ∧
        List.Perm (cl1.zip cl2) (st'.cl1.zip st'.cl2) := by
    intro C V draws c0 fuel st' c' k' pml pcl ml1 ml2 cl1 cl2 hrun heq
    have inv : LoopInv (fun _ => True) st' :=
      runLoop_loopInv V draws _ (fun _ => ⟨trivial, trivial⟩) fuel PairState.init c0 0
        st' c' k' hrun (loopInv_init _)
    have h1 : ml1 = (finalize st' pml pcl).1 := congrArg (fun x => x.1) heq
    have h2 : ml2 = (finalize st' pml pcl).2.1 := congrArg (fun x => x.2.1) heq
    have h3 : cl1 = (finalize st' pml pcl).2.2.1 := congrArg (fun x => x.2.2.1) heq
    have h4 : cl2 = (finalize st' pml pcl).2.2.2 := congrArg (fun x => x.2.2.2) heq
    obtain ⟨e1, e2, e3, e4⟩ := finalize_lengths st' pml pcl
    subst h1 h2 h3 h4
    refine ⟨by rw [e1, e2], by rw [e3, e4], ?_, ?_⟩
    · exact finalize_ml_zip_perm st' pml pcl inv.len_ml
    · exact finalize_cl_zip_perm st' pml pcl inv.len_cl
  refine ⟨?_, ?_, ?_, ?_, ?_, ?_⟩
  · intro y l num er stream pml pcl fuel ml1 ml2 cl1 cl2 e h
    obtain ⟨st', c', k', hrun, heq⟩ := grp_destruct y l num er stream pml pcl fuel _ e h
    obtain ⟨hl1, hl2, hp1, hp2⟩ := main _ _ _ fuel st' c' k' pml pcl ml1 ml2 cl1 cl2 hrun heq
    exact ⟨hl1, hl2, st', c', k', hrun, hp1, hp2⟩
  · intro n dist num ML CL stream pml pcl fuel ml1 ml2 cl1 cl2 h
    obtain ⟨st', c', k', hrun, heq⟩ :=
      proteins_destruct n dist num ML CL stream pml pcl fuel _ h
    obtain ⟨hl1, hl2, hp1, hp2⟩ := main _ _ _ fuel st' c' k' pml pcl ml1 ml2 cl1 cl2 hrun heq
    exact ⟨hl1, hl2, st', c', k', hrun, hp1, hp2⟩
  · intro M ncols num LC HC stream pml pcl fuel ml1 ml2 cl1 cl2 h
    obtain ⟨st', c', k', hrun, heq⟩ :=
      twoCDs_destruct M ncols num LC HC stream pml pcl fuel _ h
    obtain ⟨hl1, hl2, hp1, hp2⟩ := main _ _ _ fuel st' c' k' pml pcl ml1 ml2 cl1 cl2 hrun heq
    exact ⟨hl1, hl2, st', c', k', hrun, hp1, hp2⟩
  · intro M ncols num LC HC gene stream pml pcl fuel ml1 ml2 cl1 cl2 h
    obtain ⟨st', c', k', hrun, heq⟩ :=
      oneCD_destruct M ncols num LC HC gene stream pml pcl fuel _ h
    obtain ⟨hl1, hl2, hp1, hp2⟩ := main _ _ _ fuel st' c' k' pml pcl ml1 ml2 cl1 cl2 hrun heq
    exact ⟨hl1, hl2, st', c', k', hrun, hp1, hp2⟩
  · intro m ncols num low1 high1 low2 high2 stream pml pcl fuel ml1 ml2 cl1 cl2 h
    obtain ⟨st', c', k', hrun, heq⟩ :=
      cdMarkers_destruct m ncols num low1 high1 low2 high2 stream pml pcl fuel _ h
    obtain ⟨hl1, hl2, hp1, hp2⟩ := main _ _ _ fuel st' c' k' pml pcl ml1 ml2 cl1 cl2 hrun heq
    exact ⟨hl1, hl2, st', c', k', hrun, hp1, hp2⟩
  · intro n ypred dist num ML CL stream pml pcl fuel ml1 ml2 cl1 cl2 h
    obtain ⟨st', c', k', hrun, heq⟩ :=
      embClustering_destruct n ypred dist num ML CL stream pml pcl fuel _ h
    obtain ⟨hl1, hl2, hp1, hp2⟩ := main _ _ _ fuel st' c' k' pml pcl ml1 ml2 cl1 cl2 hrun heq
    exact ⟨hl1, hl2, st', c', k', hrun, hp1, hp2⟩

/-- C7 (witness): the permutation theorem applied to the concrete completed run
of `generate_random_pair` used for the other witnesses. -/
theorem c7_returned_pairs_permutation_witness :
    ([(1 : ℕ)] : List ℕ).length = ([(2 : ℕ)] : List ℕ).length ∧
      ([] : List ℕ).length = ([] : List ℕ).length ∧
      ∃ st' c' k',
        runLoop (grpVariant (fun _ => 0) 0 1) (choiceDraws [0, 1, 2] fun _ => (1, 2)) 2
          PairState.init ⟨1, 0⟩ 0 = some (st', c', k') ∧
        List.Perm ([(1 : ℕ)].zip [(2 : ℕ)]) (st'.ml1.zip st'.ml2) ∧
        List.Perm (([] : List ℕ).zip ([] : List ℕ)) (st'.cl1.zip st'.cl2) :=
  c7_returned_pairs_permutation.1 (fun _ => 0) [0, 1, 2] 1 0 (fun _ => (1, 2)) [0] [] 2
    [1] [2] [] [] 0 (by with_unfolding_all decide)

/-! Claim C2. -/

/-- C2 (counterexample): `generate_random_pair_from_one_CD` tracks two budgets
`num1 = num2 = num / 2` under Python 3 float division, so with `num = 1` both
budgets start at `1/2` and one must-link plus one cannot-link pair are
accepted: the run below completes without reaching the attempt cap yet returns
`2 > num = 1` constraints, refuting "the total number of returned constraints
never exceeds num". -/
theorem c2_counterexample :
    generate_random_pair_from_one_CD (fun _ j => (j : ℚ)) 21 1 20 90 0
        (fun k => if k = 0 then (19, 20) else (19, 0)) [0] [0] 3 =
      some ([19], [20], [19], [0]) ∧
    1 < ([19] : List ℕ).length + ([19] : List ℕ).length :=
  ⟨by with_unfolding_all decide, by decide⟩

/-- C2 (amended): for `generate_random_pair`, `generate_random_pair_from_proteins`,
`generate_random_pair_from_CD_markers` and
`generate_random_pair_from_embedding_clustering` the returned total is exactly
`num` whenever the function returns; for `generate_random_pair_from_two_CDs` the
total never exceeds `num` and equals `num` whenever the loop exits without
reaching the `20000²` cap; for `generate_random_pair_from_one_CD` the must-link
and cannot-link counts are each at most `⌈num / 2⌉` (so the total can exceed
`num` by one for odd `num`), with equality whenever the loop exits without
reaching the `1000000` cap. -/
theorem c2_constraint_counts :
    (∀ (y : ℕ → ℕ) (l : List ℕ) (num : ℕ) (er : ℚ) (stream : ℕ → ℕ × ℕ)
        (pml pcl : List ℕ) (fuel : ℕ) (ml1 ml2 cl1 cl2 : List ℕ) (e : ℕ),
      generate_random_pair y l num er stream pml pcl fuel = some ((ml1, ml2, cl1, cl2), e) →
      ml1.length + cl1.length = num) ∧
    (∀ (n : ℕ) (dist : ℕ → ℕ → ℚ) (num : ℕ) (ML CL : ℚ) (stream : ℕ → ℕ × ℕ)
        (pml pcl : List ℕ) (fuel : ℕ) (ml1 ml2 cl1 cl2 : List ℕ),
      generate_random_pair_from_proteins n dist num ML CL stream pml pcl fuel =
        some (ml1, ml2, cl1, cl2) → ml1.length + cl1.length = num) ∧
    (∀ (m : ℕ → ℕ → ℚ) (ncols num : ℕ) (low1 high1 low2 high2 : ℚ) (stream : ℕ → ℕ × ℕ)
        (pml pcl : List ℕ) (fuel : ℕ) (ml1 ml2 cl1 cl2 : List ℕ),
      generate_random_pair_from_CD_markers m ncols num low1 high1 low2 high2 stream pml
        pcl fuel = some (ml1, ml2, cl1, cl2) → ml1.length + cl1.length = num) ∧
    (∀ (n : ℕ) (ypred : ℕ → ℕ) (dist : ℕ → ℕ → ℚ) (num : ℕ) (ML CL : ℚ)
        (stream : ℕ → ℕ × ℕ) (pml pcl : List ℕ) (fuel : ℕ) (ml1 ml2 cl1 cl2 : List ℕ),
      generate_random_pair_from_embedding_clustering n ypred dist num ML CL stream pml
        pcl fuel = some (ml1, ml2, cl1, cl2) → ml1.length + cl1.length = num) ∧
    (∀ (M : ℕ → ℕ → ℚ) (ncols num : ℕ) (LC HC : ℚ) (stream : ℕ → ℕ × ℕ)
        (pml pcl : List ℕ) (fuel : ℕ) (ml1 ml2 cl1 cl2 : List ℕ),
      generate_random_pair_from_two_CDs M ncols num LC HC stream pml pcl fuel =
        some (ml1, ml2, cl1, cl2) →
      ml1.length + cl1.length ≤ num ∧
      ∃ st' c' k',
        runLoop
          (numVariant
            (twoCDsClassify M (npPercentile (rowList M ncols 0) LC)
              (npPercentile (rowList M ncols 1) LC) (npPercentile (rowList M ncols 0) HC)
              (npPercentile (rowList M ncols 1) HC))
            twoCDsCap)
          (randintDraws ncols stream) fuel PairState.init ⟨num⟩ 0 = some (st', c', k') ∧
        (twoCDsCap k' = false → ml1.length + cl1.length = num)) ∧
    (∀ (M : ℕ → ℕ → ℚ) (ncols num : ℕ) (LC HC : ℚ) (gene : ℕ) (stream : ℕ → ℕ × ℕ)
        (pml pcl : List ℕ) (fuel : ℕ) (ml1 ml2 cl1 cl2 : List ℕ),
      generate_random_pair_from_one_CD M ncols num LC HC gene stream pml pcl fuel =
        some (ml1, ml2, cl1, cl2) →
      ml1.length ≤ (num + 1) / 2 ∧ cl1.length ≤ (num + 1) / 2 ∧
      ∃ st' c' k',
        runLoop
          (oneCDVariant M gene (npPercentile (rowList M ncols gene) LC)
            (npPercentile (rowList M ncols gene) HC))
          (randintDraws ncols stream) fuel PairState.init
          ⟨(num : ℚ) / 2, (num : ℚ) / 2⟩ 0 = some (st', c', k') ∧
        (oneCDCap k' = false →
          ml1.length = (num + 1) / 2 ∧ cl1.length = (num + 1) / 2)) := by
  refine ⟨?_, ?_, ?_, ?_, ?_, ?_⟩
  · intro y l num er stream pml pcl fuel ml1 ml2 cl1 cl2 e h
    obtain ⟨st', c', k', hrun, heq⟩ := grp_destruct y l num er stream pml pcl fuel _ e h
    obtain ⟨hsum, hexit⟩ := runLoop_count _ _ (fun c => c.num) (fun _ _ => rfl)
      (fun _ => rfl) num fuel PairState.init st' ⟨num, 0⟩ c' 0 k' hrun
      (by simp [PairState.init])
    have hzero : c'.num = 0 := by simpa [grpVariant] using hexit
    have h1 : ml1 = (finalize st' pml pcl).1 := congrArg (fun x => x.1) heq
    have h3 : cl1 = (finalize st' pml pcl).2.2.1 := congrArg (fun x => x.2.2.1) heq
    obtain ⟨e1, _, e3, _⟩ := finalize_lengths st' pml pcl
    rw [h1, h3, e1, e3]
    omega
  · intro n dist num ML CL stream pml pcl fuel ml1 ml2 cl1 cl2 h
    obtain ⟨st', c', k', hrun, heq⟩ :=
      proteins_destruct n dist num ML CL stream pml pcl fuel _ h
    obtain ⟨hsum, hexit⟩ := runLoop_count _ _ (fun c => c.num) (fun _ _ => rfl)
      (fun _ => rfl) num fuel PairState.init st' ⟨num⟩ c' 0 k' hrun
      (by simp [PairState.init])
    have hzero : c'.num = 0 := by simpa [numVariant] using hexit
    have h1 : ml1 = (finalize st' pml pcl).1 := congrArg (fun x => x.1) heq
    have h3 : cl1 = (finalize st' pml pcl).2.2.1 := congrArg (fun x => x.2.2.1) heq
    obtain ⟨e1, _, e3, _⟩ := finalize_lengths st' pml pcl
    rw [h1, h3, e1, e3]
    omega
  · intro m ncols num low1 high1 low2 high2 stream pml pcl fuel ml1 ml2 cl1 cl2 h
    obtain ⟨st', c', k', hrun, heq⟩ :=
      cdMarkers_destruct m ncols num low1 high1 low2 high2 stream pml pcl fuel _ h
    obtain ⟨hsum, hexit⟩ := runLoop_count _ _ (fun c => c.num) (fun _ _ => rfl)
      (fun _ => rfl) num fuel PairState.init st' ⟨num⟩ c' 0 k' hrun
      (by simp [PairState.init])
    have hzero : c'.num = 0 := by simpa [numVariant] using hexit
    have h1 : ml1 = (finalize st' pml pcl).1 := congrArg (fun x => x.1) heq
    have h3 : cl1 = (finalize st' pml pcl).2.2.1 := congrArg (fun x => x.2.2.1) heq
    obtain ⟨e1, _, e3, _⟩ := finalize_lengths st' pml pcl
    rw [h1, h3, e1, e3]
    omega
  · intro n ypred dist num ML CL stream pml pcl fuel ml1 ml2 cl1 cl2 h
    obtain ⟨st', c', k', hrun, heq⟩ :=
      embClustering_destruct n ypred dist num ML CL stream pml pcl fuel _ h
    obtain ⟨hsum, hexit⟩ := runLoop_count _ _ (fun c => c.num) (fun _ _ => rfl)
      (fun _ => rfl) num fuel PairState.init st' ⟨num⟩ c' 0 k' hrun
      (by simp [PairState.init])
    have hzero : c'.num = 0 := by simpa [numVariant] using hexit
    have h1 : ml1 = (finalize st' pml pcl).1 := congrArg (fun x => x.1) heq
    have h3 : cl1 = (finalize st' pml pcl).2.2.1 := congrArg (fun x => x.2.2.1) heq
    obtain ⟨e1, _, e3, _⟩ := finalize_lengths st' pml pcl
    rw [h1, h3, e1, e3]
    omega
  · intro M ncols num LC HC stream pml pcl fuel ml1 ml2 cl1 cl2 h
    obtain ⟨st', c', k', hrun, heq⟩ :=
      twoCDs_destruct M ncols num LC HC stream pml pcl fuel _ h
    obtain ⟨hsum, hexit⟩ := runLoop_count _ _ (fun c => c.num) (fun _ _ => rfl)
      (fun _ => rfl) num fuel PairState.init st' ⟨num⟩ c' 0 k' hrun
      (by simp [PairState.init])
    have h1 : ml1 = (finalize st' pml pcl).1 := congrArg (fun x => x.1) heq
    have h3 : cl1 = (finalize st' pml pcl).2.2.1 := congrArg (fun x => x.2.2.1) heq
    obtain ⟨e1, _, e3, _⟩ := finalize_lengths st' pml pcl
    refine ⟨by rw [h1, h3, e1, e3]; omega, st', c', k', hrun, fun hcap => ?_⟩
    have hzero : c'.num = 0 := by
      rcases Bool.or_eq_true_iff.mp hexit with hd | hc
      · simpa using hd
      · have hc2 : twoCDsCap k' = true := hc
        rw [hcap] at hc2
        exact absurd hc2 (by simp)
    rw [h1, h3, e1, e3]
    omega
  · intro M ncols num LC HC gene stream pml pcl fuel ml1 ml2 cl1 cl2 h
    obtain ⟨st', c', k', hrun, heq⟩ :=
      oneCD_destruct M ncols num LC HC gene stream pml pcl fuel _ h
    obtain ⟨⟨hb1, hb2⟩, hcapeq⟩ := runLoop_oneCDCount M gene
      (npPercentile (rowList M ncols gene) LC) (npPercentile (rowList M ncols gene) HC)
      (randintDraws ncols stream) num fuel st' c' k' hrun
    have h1 : ml1 = (finalize st' pml pcl).1 := congrArg (fun x => x.1) heq
    have h3 : cl1 = (finalize st' pml pcl).2.2.1 := congrArg (fun x => x.2.2.1) heq
    obtain ⟨e1, _, e3, _⟩ := finalize_lengths st' pml pcl
    refine ⟨by rw [h1, e1]; exact hb1, by rw [h3, e3]; exact hb2,
      st', c', k', hrun, fun hcap => ?_⟩
    obtain ⟨q1, q2⟩ := hcapeq hcap
    exact ⟨by rw [h1, e1]; exact q1, by rw [h3, e3]; exact q2⟩

/-- C2 (witness): the count theorem applied to the concrete completed runs used
for the other witnesses (`generate_random_pair` with `num = 1`, and the
one-CD run with `num = 1` where both per-category budgets are filled). -/
theorem c2_constraint_counts_witness :
    ([(1 : ℕ)] : List ℕ).length + ([] : List ℕ).length = 1 ∧
      ([(19 : ℕ)] : List ℕ).length ≤ (1 + 1) / 2 :=
  ⟨c2_constraint_counts.1 (fun _ => 0) [0, 1, 2] 1 0 (fun _ => (1, 2)) [0] [] 2
      [1] [2] [] [] 0 (by with_unfolding_all decide),
    (c2_constraint_counts.2.2.2.2.2 (fun _ j => (j : ℚ)) 21 1 20 90 0
      (fun k => if k = 0 then (19, 20) else (19, 0)) [0] [0] 3 [19] [20] [19] [0]
      (by with_unfolding_all decide)).1⟩

/-! Claim C6. -/

theorem proteinsClassify_ml {dist : ℕ → ℕ → ℚ} {cML cCL : ℚ} {t1 t2 : ℕ}
    (h : proteinsClassify dist cML cCL t1 t2 = .ml) : dist t1 t2 < cML := by
  unfold proteinsClassify at h
  split at h
  · assumption
  · split at h
    · exact absurd h (by simp)
    · exact absurd h (by simp)

theorem proteinsClassify_cl {dist : ℕ → ℕ → ℚ} {cML cCL : ℚ} {t1 t2 : ℕ}
    (h : proteinsClassify dist cML cCL t1 t2 = .cl) : dist t1 t2 > cCL := by
  unfold proteinsClassify at h
  split at h
  · exact absurd h (by simp)
  · split at h
    · assumption
    · exact absurd h (by simp)

/-- C6: every must-link pair returned by `generate_random_pair_from_proteins`
has distance strictly below the `ML`-quantile of the strictly-lower-triangular
non-zero pairwise distances (`proteinsCutoff n dist ML`), every cannot-link
pair has distance strictly above the `CL`-quantile, and a candidate whose
distance lies between the two cutoffs (inclusive) is rejected. -/
theorem c6_proteins_distance_cutoffs :
    (∀ (n : ℕ) (dist : ℕ → ℕ → ℚ) (num : ℕ) (ML CL : ℚ) (stream : ℕ → ℕ × ℕ)
        (pml pcl : List ℕ) (fuel : ℕ) (ml1 ml2 cl1 cl2 : List ℕ),
      generate_random_pair_from_proteins n dist num ML CL stream pml pcl fuel =
        some (ml1, ml2, cl1, cl2) →
      (∀ pr ∈ ml1.zip ml2, dist pr.1 pr.2 < proteinsCutoff n dist ML) ∧
        ∀ pr ∈ cl1.zip cl2, dist pr.1 pr.2 > proteinsCutoff n dist CL) ∧
    ∀ (dist : ℕ → ℕ → ℚ) (cutoffML cutoffCL : ℚ) (t1 t2 : ℕ),
      cutoffML ≤ dist t1 t2 → dist t1 t2 ≤ cutoffCL →
      proteinsClassify dist cutoffML cutoffCL t1 t2 = .reject := by
  constructor
  · intro n dist num ML CL stream pml pcl fuel ml1 ml2 cl1 cl2 h
    obtain ⟨st', c', k', hrun, heq⟩ :=
      proteins_destruct n dist num ML CL stream pml pcl fuel _ h
    have hmain := runLoop_inv
      (numVariant
        (proteinsClassify dist (proteinsCutoff n dist ML) (proteinsCutoff n dist CL))
        fun _ => false)
      (randintDraws n stream)
      (fun s _ => s.ml1.length = s.ml2.length ∧ s.cl1.length = s.cl2.length ∧
        (∀ pr ∈ s.ml1.zip s.ml2, dist pr.1 pr.2 < proteinsCutoff n dist ML) ∧
        ∀ pr ∈ s.cl1.zip s.cl2, dist pr.1 pr.2 > proteinsCutoff n dist CL)
      (fun s c k hR _ _ _ _ hv => by
        obtain ⟨hlm, hlc, hgm, hgc⟩ := hR
        have hd : dist (randintDraws n stream k).1 (randintDraws n stream k).2 <
            proteinsCutoff n dist ML := proteinsClassify_ml hv
        refine ⟨by simp [accept, hlm], hlc, ?_, hgc⟩
        show ∀ pr ∈ (s.ml1 ++ [(randintDraws n stream k).1]).zip
          (s.ml2 ++ [(randintDraws n stream k).2]), dist pr.1 pr.2 < proteinsCutoff n dist ML
        rw [show (s.ml1 ++ [(randintDraws n stream k).1]).zip
            (s.ml2 ++ [(randintDraws n stream k).2]) =
            s.ml1.zip s.ml2 ++ [((randintDraws n stream k).1, (randintDraws n stream k).2)]
          from by rw [List.zip_append hlm]; rfl]
        intro pr hpr
        rcases List.mem_append.mp hpr with hold | hnew
        · exact hgm pr hold
        · rw [List.mem_singleton] at hnew
          subst hnew
          exact hd)
      (fun s c k hR _ _ _ _ hv => by
        obtain ⟨hlm, hlc, hgm, hgc⟩ := hR
        have hd : dist (randintDraws n stream k).1 (randintDraws n stream k).2 >
            proteinsCutoff n dist CL := proteinsClassify_cl hv
        refine ⟨hlm, by simp [accept, hlc], hgm, ?_⟩
        show ∀ pr ∈ (s.cl1 ++ [(randintDraws n stream k).1]).zip
          (s.cl2 ++ [(randintDraws n stream k).2]), dist pr.1 pr.2 > proteinsCutoff n dist CL
        rw [show (s.cl1 ++ [(randintDraws n stream k).1]).zip
            (s.cl2 ++ [(randintDraws n stream k).2]) =
            s.cl1.zip s.cl2 ++ [((randintDraws n stream k).1, (randintDraws n stream k).2)]
          from by rw [List.zip_append hlc]; rfl]
        intro pr hpr
        rcases List.mem_append.mp hpr with hold | hnew
        · exact hgc pr hold
        · rw [List.mem_singleton] at hnew
          subst hnew
          exact hd)
      fuel PairState.init ⟨num⟩ 0 st' c' k' hrun
      (by simp [PairState.init])
    obtain ⟨⟨hlm, hlc, hgm, hgc⟩, _⟩ := hmain
    have h1 : ml1 = (finalize st' pml pcl).1 := congrArg (fun x => x.1) heq
    have h2 : ml2 = (finalize st' pml pcl).2.1 := congrArg (fun x => x.2.1) heq
    have h3 : cl1 = (finalize st' pml pcl).2.2.1 := congrArg (fun x => x.2.2.1) heq
    have h4 : cl2 = (finalize st' pml pcl).2.2.2 := congrArg (fun x => x.2.2.2) heq
    rw [h1, h2, h3, h4]
    constructor
    · intro pr hpr
      exact hgm pr ((finalize_ml_zip_perm st' pml pcl hlm).mem_iff.mp hpr)
    · intro pr hpr
      exact hgc pr ((finalize_cl_zip_perm st' pml pcl hlc).mem_iff.mp hpr)
  · intro dist cutoffML cutoffCL t1 t2 hML hCL
    unfold proteinsClassify
    rw [if_neg (not_lt.mpr hML), if_neg (not_lt.mpr hCL)]

/-- C6 (witness): the cutoff theorem applied concretely — a candidate at
distance exactly between the two cutoffs is rejected. -/
theorem c6_proteins_distance_cutoffs_witness :
    proteinsClassify (fun _ _ => (1 : ℚ)) 1 1 0 1 = .reject :=
  c6_proteins_distance_cutoffs.2 (fun _ _ => (1 : ℚ)) 1 1 0 1 (le_refl 1) (le_refl 1)

/-! Claim C5. -/

/-- C5 (counterexample): the marker classifier of the source has a seventh
branch (a fifth must-link pattern). On the concrete marker matrix `c5Markers`
the candidate pair `(0, 1)` falls through the first six patterns but matches
the seventh and is classified must-link, while the six-pattern decision table
described by the specification rejects it — so the claimed "exactly six
marker-combination patterns — two cannot-link and four must-link" is false. -/
theorem c5_counterexample :
    cdMarkersClassify c5Markers 11 (2 / 5) (3 / 5) (1 / 5) (4 / 5) 0 1 = .ml ∧
    cdMarkersClassifySpecSix c5Markers 11 (2 / 5) (3 / 5) (1 / 5) (4 / 5) 0 1 = .reject :=
  ⟨by with_unfolding_all decide, by with_unfolding_all decide⟩

/-- C5 (amended): `generate_random_pair_from_CD_markers` classifies each
candidate pair by a fixed decision table of exactly seven marker-combination
patterns — two producing cannot-link constraints and five producing must-link
constraints — evaluated in priority order, with the first matching pattern
deciding the pair and non-matching candidates rejected. -/
theorem c5_decision_table :
    (∀ (m : ℕ → ℕ → ℚ) (ncols : ℕ) (low1 high1 low2 high2 : ℚ) (t1 t2 : ℕ),
      cdMarkersClassify m ncols low1 high1 low2 high2 t1 t2 =
        firstMatch t1 t2 (cdMarkersTable m ncols low1 high1 low2 high2)) ∧
    ∀ (m : ℕ → ℕ → ℚ) (ncols : ℕ) (low1 high1 low2 high2 : ℚ),
      (cdMarkersTable m ncols low1 high1 low2 high2).map Prod.snd =
        [.cl, .cl, .ml, .ml, .ml, .ml, .ml] := by
  constructor
  · intro m ncols low1 high1 low2 high2 t1 t2
    simp only [cdMarkersClassify, cdMarkersTable, firstMatch, decide_eq_true_eq]
  · intro m ncols low1 high1 low2 high2
    simp only [cdMarkersTable, List.map]

/-! Helper lemmas for the clustering accuracy evaluator. -/

theorem le_listMax {l : List ℕ} {x : ℕ} (h : x ∈ l) : x ≤ listMax l := by
  induction l with
  | nil => cases h
  | cons a l ih =>
    rw [List.mem_cons] at h
    simp only [listMax, List.foldr_cons] at *
    rcases h with rfl | h
    · exact le_max_left _ _
    · exact le_trans (ih h) (le_max_right _ _)

theorem listMax_lt {l : List ℕ} {D : ℕ} (hD : 0 < D) (h : ∀ x ∈ l, x < D) :
    listMax l < D := by
  induction l with
  | nil => simpa [listMax]
  | cons a l ih =>
    simp only [listMax, List.foldr_cons] at *
    exact max_lt (h a (by simp)) (ih fun x hx => h x (by simp [hx]))

theorem contingency_mem {t p : List ℕ} {i j : ℕ} (h : contingency t p i j ≠ 0) :
    i ∈ p ∧ j ∈ t := by
  unfold contingency at h
  have hmem : (i, j) ∈ p.zip t := by
    by_contra hc
    exact h (List.count_eq_zero.mpr hc)
  exact ⟨(List.of_mem_zip hmem).1, (List.of_mem_zip hmem).2⟩

theorem le_bestAssign (D : ℕ) (w : ℕ → ℕ → ℕ) (σ : Equiv.Perm (Fin D)) :
    (∑ j : Fin D, w (σ j) j) ≤ bestAssign D w := by
  unfold bestAssign
  exact @Finset.le_sup _ _ _ _ _ (fun σ : Equiv.Perm (Fin D) => ∑ j : Fin D, w (σ j) j) σ
    (Finset.mem_univ σ)

theorem bestAssign_le (D : ℕ) (w : ℕ → ℕ → ℕ) (n : ℕ)
    (h : ∀ σ : Equiv.Perm (Fin D), (∑ j : Fin D, w (σ j) j) ≤ n) :
    bestAssign D w ≤ n := by
  unfold bestAssign
  exact Finset.sup_le fun σ _ => h σ

theorem bestAssign_succ (m : ℕ) (w : ℕ → ℕ → ℕ) (hrow : ∀ j, w m j = 0)
    (hcol : ∀ i, w i m = 0) : bestAssign (m + 1) w = bestAssign m w := by
  apply le_antisymm
  · apply bestAssign_le
    intro σ'
    set a := σ' (Fin.last m) with ha
    set τ := σ'.trans (Equiv.swap a (Fin.last m)) with hτ
    have hτlast : τ (Fin.last m) = Fin.last m := by
      simp [hτ, Equiv.swap_apply_left]
    have hterm : ∀ j : Fin (m + 1), w (σ' j) j ≤ w (τ j) j := by
      intro j
      by_cases hj : j = Fin.last m
      · subst hj
        rw [show ((Fin.last m : Fin (m + 1)) : ℕ) = m from rfl, hcol]
        exact Nat.zero_le _
      · have hja : σ' j ≠ a := fun hh => hj (σ'.injective (hh.trans ha))
        by_cases hjl : σ' j = Fin.last m
        · rw [hjl, show ((Fin.last m : Fin (m + 1)) : ℕ) = m from rfl, hrow]
          exact Nat.zero_le _
        · have hfix : τ j = σ' j := by
            simp only [hτ, Equiv.trans_apply]
            exact Equiv.swap_apply_of_ne_of_ne hja hjl
          rw [hfix]
    have hτsymmlast : τ.symm (Fin.last m) = Fin.last m := by
      rw [Equiv.symm_apply_eq, hτlast]
    have hne : ∀ i : Fin m, ((τ i.castSucc : Fin (m + 1)) : ℕ) < m := by
      intro i
      have h1 : τ i.castSucc ≠ Fin.last m := by
        intro hh
        have h2 := τ.injective (hh.trans hτlast.symm)
        have h3 : ((i.castSucc : Fin (m + 1)) : ℕ) = m := by rw [h2]; rfl
        have h4 : (i : ℕ) < m := i.isLt
        simp only [Fin.coe_castSucc] at h3
        omega
      have h2 := (τ i.castSucc).isLt
      have h3 : ((τ i.castSucc : Fin (m + 1)) : ℕ) ≠ m := fun hv =>
        h1 (Fin.ext (by rw [hv]; rfl))
      omega
    have hne' : ∀ i : Fin m, ((τ.symm i.castSucc : Fin (m + 1)) : ℕ) < m := by
      intro i
      have h1 : τ.symm i.castSucc ≠ Fin.last m := by
        intro hh
        have h2 := τ.symm.injective (hh.trans hτsymmlast.symm)
        have h3 : ((i.castSucc : Fin (m + 1)) : ℕ) = m := by rw [h2]; rfl
        have h4 : (i : ℕ) < m := i.isLt
        simp only [Fin.coe_castSucc] at h3
        omega
      have h2 := (τ.symm i.castSucc).isLt
      have h3 : ((τ.symm i.castSucc : Fin (m + 1)) : ℕ) ≠ m := fun hv =>
        h1 (Fin.ext (by rw [hv]; rfl))
      omega
    have hcastval : ∀ (v : ℕ) (hv : v < m), (((⟨v, hv⟩ : Fin m).castSucc : Fin (m + 1))) =
        (⟨v, by omega⟩ : Fin (m + 1)) := by
      intro v hv
      apply Fin.ext
      rfl
    refine le_trans (Finset.sum_le_sum fun j _ => hterm j) ?_
    have hsum : (∑ j : Fin (m + 1), w (τ j) j) =
        ∑ j : Fin m, w ((τ j.castSucc : Fin (m + 1)) : ℕ) j := by
      rw [Fin.sum_univ_castSucc]
      have hlastterm :
          w ((τ (Fin.last m) : Fin (m + 1)) : ℕ) ((Fin.last m : Fin (m + 1)) : ℕ) = 0 := by
        rw [hτlast]
        exact hrow m
      rw [hlastterm, add_zero]
      exact Finset.sum_congr rfl fun i _ => by rw [Fin.coe_castSucc]
    rw [hsum]
    have hρ : ∃ ρ : Equiv.Perm (Fin m), ∀ i : Fin m,
        ((ρ i : Fin m) : ℕ) = ((τ i.castSucc : Fin (m + 1)) : ℕ) := by
      refine ⟨⟨fun i => ⟨((τ i.castSucc : Fin (m + 1)) : ℕ), hne i⟩,
        fun i => ⟨((τ.symm i.castSucc : Fin (m + 1)) : ℕ), hne' i⟩, ?_, ?_⟩, fun i => rfl⟩
      · intro i
        apply Fin.ext
        simp only []
        have hcs : ((⟨((τ i.castSucc : Fin (m + 1)) : ℕ), hne i⟩ : Fin m).castSucc :
            Fin (m + 1)) = τ i.castSucc := by
          apply Fin.ext
          rfl
        rw [hcs, Equiv.symm_apply_apply]
        rfl
      · intro i
        apply Fin.ext
        simp only []
        have hcs : ((⟨((τ.symm i.castSucc : Fin (m + 1)) : ℕ), hne' i⟩ : Fin m).castSucc :
            Fin (m + 1)) = τ.symm i.castSucc := by
          apply Fin.ext
          rfl
        rw [hcs, Equiv.apply_symm_apply]
        rfl
    obtain ⟨ρ, hρval⟩ := hρ
    have hsum2 : (∑ j : Fin m, w ((τ j.castSucc : Fin (m + 1)) : ℕ) j) =
        ∑ j : Fin m, w (ρ j) j :=
      Finset.sum_congr rfl fun i _ => by rw [hρval i]
    rw [hsum2]
    exact le_bestAssign m w ρ
  · apply bestAssign_le
    intro σ
    have hlastfix : (σ.viaFintypeEmbedding Fin.castSuccEmb) (Fin.last m) = Fin.last m := by
      apply Equiv.Perm.viaFintypeEmbedding_apply_not_mem_range
      rintro ⟨i, hi⟩
      have : ((Fin.castSuccEmb i : Fin (m + 1)) : ℕ) = m := by rw [hi]; rfl
      have h4 : (i : ℕ) < m := i.isLt
      have h5 : ((Fin.castSuccEmb i : Fin (m + 1)) : ℕ) = (i : ℕ) := rfl
      omega
    have hsum : (∑ j : Fin m, w (σ j) j) =
        ∑ j : Fin (m + 1), w ((σ.viaFintypeEmbedding Fin.castSuccEmb) j) j := by
      rw [Fin.sum_univ_castSucc, hlastfix]
      have hlastterm :
          w ((Fin.last m : Fin (m + 1)) : ℕ) ((Fin.last m : Fin (m + 1)) : ℕ) = 0 :=
        hrow m
      rw [hlastterm, add_zero]
      apply Finset.sum_congr rfl
      intro i _
      have him : (σ.viaFintypeEmbedding Fin.castSuccEmb) i.castSucc = (σ i).castSucc :=
        Equiv.Perm.viaFintypeEmbedding_apply_image σ Fin.castSuccEmb i
      rw [him, Fin.coe_castSucc, Fin.coe_castSucc]
    rw [hsum]
    exact le_bestAssign (m + 1) w _

theorem bestAssign_pad (w : ℕ → ℕ → ℕ) (d : ℕ) (hzero : ∀ i j, d ≤ i ∨ d ≤ j → w i j = 0) :
    ∀ e, d ≤ e → bestAssign e w = bestAssign d w := by
  intro e
  induction e with
  | zero =>
    intro hde
    obtain rfl : d = 0 := by omega
    rfl
  | succ m ih =>
    intro hde
    rcases Nat.lt_or_ge d (m + 1) with hlt | hge
    · have hdm : d ≤ m := by omega
      rw [bestAssign_succ m w (fun j => hzero m j (Or.inl hdm))
        (fun i => hzero i m (Or.inr hdm))]
      exact ih hdm
    · obtain rfl : d = m + 1 := by omega
      rfl

theorem bestAssign_rowPerm (D : ℕ) (w : ℕ → ℕ → ℕ) (π : Equiv.Perm (Fin D)) :
    bestAssign D
      (fun i j => if h : i < D then w (((π.symm ⟨i, h⟩ : Fin D)) : ℕ) j else 0) =
      bestAssign D w := by
  apply le_antisymm
  · apply bestAssign_le
    intro σ
    have hsum : (∑ j : Fin D,
        (fun i j => if h : i < D then w (((π.symm ⟨i, h⟩ : Fin D)) : ℕ) j else 0)
          ((σ j : Fin D) : ℕ) (j : ℕ)) = ∑ j : Fin D, w ((σ.trans π.symm) j) j := by
      apply Finset.sum_congr rfl
      intro j _
      show (if h : ((σ j : Fin D) : ℕ) < D then
          w (((π.symm ⟨((σ j : Fin D) : ℕ), h⟩ : Fin D)) : ℕ) (j : ℕ) else 0) = _
      rw [dif_pos (σ j).isLt]
      have hfe : (⟨((σ j : Fin D) : ℕ), (σ j).isLt⟩ : Fin D) = σ j := Fin.ext rfl
      rw [hfe]
      rfl
    rw [hsum]
    exact le_bestAssign D w _
  · apply bestAssign_le
    intro σ
    have hsum : (∑ j : Fin D, w (σ j) j) = ∑ j : Fin D,
        (fun i j => if h : i < D then w (((π.symm ⟨i, h⟩ : Fin D)) : ℕ) j else 0)
          (((σ.trans π) j : Fin D) : ℕ) (j : ℕ) := by
      apply Finset.sum_congr rfl
      intro j _
      show _ = (if h : (((σ.trans π) j : Fin D) : ℕ) < D then
          w (((π.symm ⟨(((σ.trans π) j : Fin D) : ℕ), h⟩ : Fin D)) : ℕ) (j : ℕ) else 0)
      rw [dif_pos ((σ.trans π) j).isLt]
      have h1 : (⟨(((σ.trans π) j : Fin D) : ℕ), ((σ.trans π) j).isLt⟩ : Fin D) =
          π (σ j) := Fin.ext rfl
      rw [h1, Equiv.symm_apply_apply]
    rw [hsum]
    exact le_bestAssign D
      (fun i j => if h : i < D then w (((π.symm ⟨i, h⟩ : Fin D)) : ℕ) j else 0)
      (σ.trans π)

theorem count_map_inj {g : ℕ × ℕ → ℕ × ℕ} (hg : Function.Injective g)
    (l : List (ℕ × ℕ)) (a : ℕ × ℕ) : (l.map g).count (g a) = l.count a := by
  induction l with
  | nil => rfl
  | cons b l ih =>
    rw [List.map_cons, List.count_cons, List.count_cons, ih]
    by_cases hab : a = b
    · subst hab
      simp
    · have hgab : g a ≠ g b := fun hh => hab (hg hh)
      simp [Ne.symm hab, Ne.symm hgab]

theorem contingency_relabel (t p : List ℕ) (D : ℕ) (π : Equiv.Perm (Fin D))
    (hp : ∀ x ∈ p, x < D) (i j : ℕ) :
    contingency t (relabel D π p) i j =
      if h : i < D then contingency t p (((π.symm ⟨i, h⟩ : Fin D)) : ℕ) j else 0 := by
  have hfinj : Function.Injective
      (fun x : ℕ => if h : x < D then ((π ⟨x, h⟩ : Fin D) : ℕ) else x) := by
    intro x y hxy
    beta_reduce at hxy
    by_cases hx : x < D <;> by_cases hy : y < D
    · rw [dif_pos hx, dif_pos hy] at hxy
      have h2 := π.injective (Fin.ext hxy)
      exact congrArg Fin.val h2
    · rw [dif_pos hx, dif_neg hy] at hxy
      have h2 := (π ⟨x, hx⟩).isLt
      omega
    · rw [dif_neg hx, dif_pos hy] at hxy
      have h2 := (π ⟨y, hy⟩).isLt
      omega
    · rwa [dif_neg hx, dif_neg hy] at hxy
  unfold contingency relabel
  rw [List.zip_map_left]
  by_cases h : i < D
  · rw [dif_pos h]
    have hval : (fun x : ℕ => if hx : x < D then ((π ⟨x, hx⟩ : Fin D) : ℕ) else x)
        (((π.symm ⟨i, h⟩ : Fin D)) : ℕ) = i := by
      beta_reduce
      rw [dif_pos (π.symm ⟨i, h⟩).isLt]
      have h2 : (⟨(((π.symm ⟨i, h⟩ : Fin D)) : ℕ), (π.symm ⟨i, h⟩).isLt⟩ : Fin D) =
          π.symm ⟨i, h⟩ := Fin.ext rfl
      rw [h2, Equiv.apply_symm_apply]
    have hpair : ((i, j) : ℕ × ℕ) =
        Prod.map (fun x : ℕ => if hx : x < D then ((π ⟨x, hx⟩ : Fin D) : ℕ) else x) id
          ((((π.symm ⟨i, h⟩ : Fin D)) : ℕ), j) := by
      simp [Prod.map, hval]
    rw [hpair]
    exact count_map_inj (hfinj.prodMap Function.injective_id) (p.zip t) _
  · rw [dif_neg h]
    apply List.count_eq_zero.mpr
    intro hmem
    rw [List.mem_map] at hmem
    obtain ⟨pr, hpr, hpr2⟩ := hmem
    have hx : pr.1 ∈ p := (List.of_mem_zip hpr).1
    have hxD := hp pr.1 hx
    have hfst : (fun x : ℕ => if hx : x < D then ((π ⟨x, hx⟩ : Fin D) : ℕ) else x) pr.1 = i :=
      congrArg Prod.fst hpr2
    beta_reduce at hfst
    rw [dif_pos hxD] at hfst
    have h2 := (π ⟨pr.1, hxD⟩).isLt
    omega

theorem sum_count_le (s : Finset (ℕ × ℕ)) (l : List (ℕ × ℕ)) :
    (∑ v ∈ s, l.count v) ≤ l.length := by
  induction l with
  | nil => simp
  | cons a l ih =>
    rw [List.length_cons]
    have hc : ∀ v ∈ s, (a :: l).count v = l.count v + if a = v then 1 else 0 := by
      intro v _
      rw [List.count_cons]
      simp
    rw [Finset.sum_congr rfl hc, Finset.sum_add_distrib]
    have hone : (∑ v ∈ s, if a = v then 1 else 0) ≤ 1 := by
      rw [Finset.sum_ite_eq s a fun _ => 1]
      split <;> omega
    omega

theorem bestAssign_le_length (t p : List ℕ) (D : ℕ) :
    bestAssign D (contingency t p) ≤ p.length := by
  apply bestAssign_le
  intro σ
  have hinj : ∀ x ∈ Finset.univ, ∀ y ∈ Finset.univ,
      (fun j : Fin D => ((((σ j : Fin D)) : ℕ), (j : ℕ))) x =
        (fun j : Fin D => ((((σ j : Fin D)) : ℕ), (j : ℕ))) y → x = y := by
    intro x _ y _ hxy
    exact Fin.ext (congrArg Prod.snd hxy)
  have himage : (∑ j : Fin D, contingency t p (σ j) j) =
      ∑ v ∈ Finset.univ.image (fun j : Fin D => ((((σ j : Fin D)) : ℕ), (j : ℕ))),
        (p.zip t).count v := by
    rw [Finset.sum_image hinj]
    rfl
  rw [himage]
  exact le_trans (sum_count_le _ _) (by rw [List.length_zip]; omega)

/-! Claim C9. -/

/-- C9 (counterexample): on the equal-size pair of empty label vectors
`cluster_acc` does not return normally — the size assertion passes and then
`y_pred.max()` raises a `ValueError` on the zero-size array — refuting "for
equal-size non-negative integer label vectors it returns normally". -/
theorem c9_counterexample : cluster_acc [] [] = Except.error "ValueError" := rfl

/-- C9 (amended): `cluster_acc` fails with an assertion failure precisely when
the predicted and true label vectors differ in size (no other defensive check
exists); for equal-size nonempty non-negative integer label vectors it returns
normally with a value in `[0, 1]`, the optimal-assignment total divided by the
sample count; for the equal-size empty vectors it raises a `ValueError` from
`y_pred.max()` instead. -/
theorem c9_cluster_acc_contract :
    ∀ y_true y_pred : List ℕ,
      (y_pred.length ≠ y_true.length ↔
        cluster_acc y_true y_pred = .error "AssertionError") ∧
      (y_pred.length = y_true.length → y_pred ≠ [] →
        ∃ q, cluster_acc y_true y_pred = .ok q ∧ 0 ≤ q ∧ q ≤ 1) ∧
      (y_pred = [] → y_true = [] → cluster_acc y_true y_pred = .error "ValueError") := by
  intro t p
  refine ⟨⟨?_, ?_⟩, ?_, ?_⟩
  · intro hne
    unfold cluster_acc
    rw [if_neg hne]
  · intro herr
    by_contra hlen
    unfold cluster_acc at herr
    rw [if_pos hlen] at herr
    by_cases hpe : p.isEmpty
    · rw [if_pos hpe] at herr
      exact absurd (Except.error.injEq _ _ ▸ herr) (by simp)
    · rw [if_neg hpe] at herr
      simp at herr
  · intro hlen hne
    unfold cluster_acc
    rw [if_pos hlen, if_neg (by simpa [List.isEmpty_iff] using hne)]
    have hlpos : 0 < p.length := List.length_pos.mpr hne
    refine ⟨_, rfl, ?_, ?_⟩
    · positivity
    · rw [div_le_one (by exact_mod_cast hlpos)]
      exact_mod_cast bestAssign_le_length t p (labelDim t p)
  · intro hp ht
    subst hp
    subst ht
    rfl

/-- C9 (witness): the contract theorem applied to the concrete equal-size
nonempty vectors `y_true = [0]`, `y_pred = [1]`. -/
theorem c9_cluster_acc_contract_witness :
    ∃ q, cluster_acc [0] [1] = .ok q ∧ 0 ≤ q ∧ q ≤ 1 :=
  (c9_cluster_acc_contract [0] [1]).2.1 rfl (by decide)

/-! Claim C8. -/

/-- C8: relabelling the predicted clusters alone never changes the returned
accuracy: for every pair of label vectors of equal length, with
`D = max(max(y_pred), max(y_true)) + 1`, and every permutation `π` of
`{0, …, D-1}`, `cluster_acc(y_true, π ∘ y_pred) = cluster_acc(y_true, y_pred)`,
because the evaluator optimises over all one-to-one label assignments. -/
theorem c8_relabel_invariance :
    ∀ (y_true y_pred : List ℕ) (π : Equiv.Perm (Fin (labelDim y_true y_pred))),
      y_pred.length = y_true.length →
      cluster_acc y_true (relabel (labelDim y_true y_pred) π y_pred) =
        cluster_acc y_true y_pred := by
  intro t p π hlen
  have hDpos : 0 < labelDim t p := Nat.succ_pos _
  have hDdef : labelDim t p = max (listMax p) (listMax t) + 1 := rfl
  have hpD : ∀ x ∈ p, x < labelDim t p := by
    intro x hx
    have h1 := le_listMax hx
    have h2 : listMax p ≤ max (listMax p) (listMax t) := le_max_left _ _
    omega
  have hrel_lt : ∀ x ∈ relabel (labelDim t p) π p, x < labelDim t p := by
    intro x hx
    rw [relabel, List.mem_map] at hx
    obtain ⟨a, ha, rfl⟩ := hx
    rw [dif_pos (hpD a ha)]
    exact (π ⟨a, hpD a ha⟩).isLt
  have hlenrel : (relabel (labelDim t p) π p).length = p.length := List.length_map _ _
  by_cases hpe : p = []
  · subst hpe
    rfl
  · unfold cluster_acc
    have hlen2 : (relabel (labelDim t p) π p).length = t.length := by rw [hlenrel, hlen]
    rw [if_pos hlen2, if_pos hlen]
    have hrelne : relabel (labelDim t p) π p ≠ [] := by
      intro hh
      exact hpe (List.length_eq_zero.mp (by rw [← hlenrel, hh]; rfl))
    rw [if_neg (by simpa [List.isEmpty_iff] using hrelne),
      if_neg (by simpa [List.isEmpty_iff] using hpe)]
    have hnum : bestAssign (labelDim t (relabel (labelDim t p) π p))
        (contingency t (relabel (labelDim t p) π p)) =
        bestAssign (labelDim t p) (contingency t p) := by
      have hD'def : labelDim t (relabel (labelDim t p) π p) =
          max (listMax (relabel (labelDim t p) π p)) (listMax t) + 1 := rfl
      have hD'le : labelDim t (relabel (labelDim t p) π p) ≤ labelDim t p := by
        have h1 : listMax (relabel (labelDim t p) π p) < labelDim t p :=
          listMax_lt hDpos hrel_lt
        have h2 : listMax t < labelDim t p := by
          have h3 := le_max_right (listMax p) (listMax t)
          omega
        omega
      have hzero : ∀ i j,
          labelDim t (relabel (labelDim t p) π p) ≤ i ∨
            labelDim t (relabel (labelDim t p) π p) ≤ j →
          contingency t (relabel (labelDim t p) π p) i j = 0 := by
        intro i j hij
        by_contra hc
        obtain ⟨hi, hj⟩ := contingency_mem hc
        have h1 := le_listMax hi
        have h2 := le_listMax hj
        have h3 := le_max_left (listMax (relabel (labelDim t p) π p)) (listMax t)
        have h4 := le_max_right (listMax (relabel (labelDim t p) π p)) (listMax t)
        omega
      rw [← bestAssign_pad (contingency t (relabel (labelDim t p) π p))
        (labelDim t (relabel (labelDim t p) π p)) hzero (labelDim t p) hD'le]
      rw [show contingency t (relabel (labelDim t p) π p) =
          (fun i j => if h : i < labelDim t p then
            contingency t p (((π.symm ⟨i, h⟩ : Fin (labelDim t p))) : ℕ) j else 0) from
        funext fun i => funext fun j => contingency_relabel t p (labelDim t p) π hpD i j]
      exact bestAssign_rowPerm (labelDim t p) (contingency t p) π
    rw [hnum, hlenrel]

/-- C8 (witness): the invariance theorem applied to the concrete vectors
`y_true = [0, 1]`, `y_pred = [1, 0]` and the transposition of the two labels. -/
theorem c8_relabel_invariance_witness :
    cluster_acc [0, 1]
        (relabel (labelDim [0, 1] [1, 0])
          (Equiv.swap ⟨0, by decide⟩ ⟨1, by decide⟩) [1, 0]) =
      cluster_acc [0, 1] [1, 0] :=
  c8_relabel_invariance [0, 1] [1, 0] (Equiv.swap ⟨0, by decide⟩ ⟨1, by decide⟩) rfl

end ScDCC
